import Mathlib

/-!
# Verification of the dominator analysis engine and the stack-footprint helper

Shallow embedding of `libyul/backends/evm/Dominator.h` (class `DominatorFinder`,
a Lengauer–Tarjan dominator finder) and of the `stackSize` helper of
`libsolidity/experimental/codegen/IRGeneratorForStatements.h`.

Modelling conventions:
* `size_t` values are `Nat`.  Array cells that the C++ code initialises to
  `std::numeric_limits<size_t>::max()` (an "unset" sentinel) are modelled as
  `Option Nat` with `none` standing for `SIZE_MAX`; stored DFS indices are
  always `< numVertices < SIZE_MAX`, so equality with and ordering against the
  sentinel translates to the `Option` helpers below.
* `std::vector` cells become total functions `Nat → _` updated with `upd`;
  `std::map<V, size_t>` becomes `V → Option Nat`; `std::set<size_t>` becomes a
  strictly ascending `List Nat` (matching the iteration order of `std::set`);
  `std::deque<size_t>` becomes a `List Nat` with appends at the back.
* Recursive procedures (`dfs`, `compressPath`, the `dominates` /
  `dominatorsOf` chain walks) take an explicit fuel argument; the fuel chosen
  at each call site is proved (or, for concrete runs, computed) to be large
  enough, so exhaustion never occurs on the executions the theorems speak of.
* `solAssert` failures and exceptions (`ElementNotFound` from the catch of
  `std::out_of_range`) are modelled with `Except DomErr` / `Option` results on
  the operations whose claims mention them.
-/

namespace SolidityDom

/-- Point update of a `Nat`-indexed array modelled as a function. -/
def upd {α : Type} (f : Nat → α) (i : Nat) (x : α) : Nat → α :=
  fun j => if j = i then x else f j

/-- Point update of a vertex-keyed map (`std::map<V, size_t>` insertion). -/
def updV {V : Type} [DecidableEq V] (f : V → Option Nat) (v : V) (i : Nat) : V → Option Nat :=
  fun w => if w = v then some i else f w

/-- `a < b` on `size_t` where `none` stands for `SIZE_MAX` (and every stored
`some` value is a DFS index, hence `< SIZE_MAX`). -/
def optLt : Option Nat → Option Nat → Bool
  | some a, some b => decide (a < b)
  | some _, none => true
  | none, _ => false

/-- Ordered insertion: `std::set<size_t>::insert` on the ascending element list. -/
def insertSorted (x : Nat) : List Nat → List Nat
  | [] => [x]
  | y :: ys => if x < y then x :: y :: ys else if x = y then y :: ys else y :: insertSorted x ys

/-- The mutable state of `DominatorFinder::findDominators`.
`verts` is the assigned prefix of `m_vertices` (the vector itself is
preallocated to `numVertices`; see `Engine.mVerts`), so the DFS counter
`dfIdx` is always `verts.length`.  `trace` records the `wIdx` values processed
by the main loop, in order, for stating claims about the processing order. -/
structure DomState (V : Type) where
  verts : List V
  idx : V → Option Nat
  semi : Nat → Option Nat
  parent : Nat → Option Nat
  ancestor : Nat → Option Nat
  label : Nat → Nat
  preds : Nat → List Nat
  bucket : Nat → List Nat
  idom : Nat → Option Nat
  trace : List Nat

/-- Initial state: `semi`, `parent`, `ancestor`, `idom` filled with `SIZE_MAX`
(`none`), `label` zero-initialised, all containers empty. -/
def initState (V : Type) : DomState V :=
  { verts := [], idx := fun _ => none, semi := fun _ => none, parent := fun _ => none,
    ancestor := fun _ => none, label := fun _ => 0, preds := fun _ => [],
    bucket := fun _ => [], idom := fun _ => none, trace := [] }

/-- `DominatorFinder::compressPath`.  Mutates `ancestor` and `label` only; the
fuel bounds the recursion depth along the strictly decreasing ancestor chain
(the two C++ `solAssert`s hold on every call the engine makes, see the
invariant lemmas below). -/
def compressPath (semi : Nat → Option Nat) :
    Nat → (Nat → Option Nat) → (Nat → Nat) → Nat → (Nat → Option Nat) × (Nat → Nat)
  | 0, anc, lab, _ => (anc, lab)
  | fuel + 1, anc, lab, v =>
    match anc v with
    | none => (anc, lab)
    | some u =>
      match anc u with
      | none => (anc, lab)
      | some _ =>
        let p := compressPath semi fuel anc lab u
        let lab2 := if optLt (semi (p.2 u)) (semi (p.2 v)) then upd p.2 v (p.2 u) else p.2
        (upd p.1 v (p.1 u), lab2)

/-- The `eval` lambda of `findDominators`: path compression followed by a
`label` read; returns the updated `ancestor`, `label` and the result index. -/
def evalStep (semi : Nat → Option Nat) (anc : Nat → Option Nat) (lab : Nat → Nat)
    (v : Nat) : (Nat → Option Nat) × (Nat → Nat) × Nat :=
  match anc v with
  | none => (anc, lab, v)
  | some _ =>
    let p := compressPath semi (v + 1) anc lab v
    (p.1, p.2, p.2 v)

/-- The body of the successor enumeration inside `dfs`, for the current
vertex `v`: the C++ guard reads `semi[dfIdx]` at the *current* next-free
counter; within bounds that cell is still `SIZE_MAX`, so the guard is taken
(the visited-set check at the head of `dfs` is what stops re-expansion).  The
read itself goes one past the end of `semi` once all `numVertices` vertices
are assigned — see `dfsReads` below, which instruments exactly these reads.
`inner` is the recursive `dfs` call. -/
def dfsSucc {V : Type} [DecidableEq V] (inner : V → DomState V → DomState V) (v : V)
    (t : DomState V) (w : V) : DomState V :=
  let t1 : DomState V :=
    if t.semi t.verts.length = none then
      inner w { t with parent := upd t.parent t.verts.length (some ((t.idx v).getD 0)) }
    else t
  let wi := (t1.idx w).getD 0
  { t1 with preds := upd t1.preds wi (insertSorted ((t1.idx v).getD 0) (t1.preds wi)) }

/-- The state a `dfs` visit of a fresh vertex creates before enumerating its
successors: `m_vertices[dfIdx] = v`, `m_vertexIndices[v] = dfIdx`,
`semi[dfIdx] = label[dfIdx] = dfIdx`, `dfIdx++`. -/
def dfsAssign {V : Type} [DecidableEq V] (v : V) (s : DomState V) : DomState V :=
  { s with
    verts := s.verts ++ [v], idx := updV s.idx v s.verts.length,
    semi := upd s.semi s.verts.length (some s.verts.length),
    label := upd s.label s.verts.length s.verts.length }

/-- The recursive `dfs` lambda of `findDominators`. -/
def dfsStep {V : Type} [DecidableEq V] (succs : V → List V) :
    Nat → V → DomState V → DomState V
  | 0, _, s => s
  | fuel + 1, v, s =>
    if (s.idx v).isSome then s
    else (succs v).foldl (dfsSucc (dfsStep succs fuel) v) (dfsAssign v s)

/-- `m_vertexIndices[v]` via `operator[]`: a missing key is value-initialised
to `0` and inserted (this only ever happens for the default-constructed
padding vertices present when `numVertices` exceeds the reachable count). -/
def toIdx {V : Type} [DecidableEq V] (m : V → Option Nat) (v : V) : Nat × (V → Option Nat) :=
  match m v with
  | some i => (i, m)
  | none => (0, updV m v 0)

/-- Step 3 of the main loop (performed first, per the
Georgiadis–Tarjan–Werneck ordering): drain `bucket[wIdx]`, assigning
`idom[vIdx] = (semi[uIdx] < semi[vIdx]) ? uIdx : wIdx` with `uIdx = eval(vIdx)`.
The bucket is not cleared (it is never drained again). -/
def drainBody {V : Type} (w : Nat) (u : DomState V) (vIdx : Nat) : DomState V :=
  let r := evalStep u.semi u.ancestor u.label vIdx
  let d := if optLt (u.semi r.2.2) (u.semi vIdx) then r.2.2 else w
  { u with ancestor := r.1, label := r.2.1, idom := upd u.idom vIdx (some d) }

def drainBucket {V : Type} (w : Nat) (t : DomState V) : DomState V :=
  (t.bucket w).foldl (drainBody w) t

/-- Step 2 of the main loop: for each predecessor `vIdx` of `wIdx`,
`semi[wIdx] = min(semi[wIdx], semi[eval(vIdx)])`. -/
def predsBody {V : Type} (w : Nat) (u : DomState V) (vIdx : Nat) : DomState V :=
  let r := evalStep u.semi u.ancestor u.label vIdx
  let u1 : DomState V := { u with ancestor := r.1, label := r.2.1 }
  if optLt (u1.semi r.2.2) (u1.semi w) then
    { u1 with semi := upd u1.semi w (u1.semi r.2.2) }
  else u1

def processPreds {V : Type} (w : Nat) (t : DomState V) : DomState V :=
  (t.preds w).foldl (predsBody w) t

/-- One iteration of the main loop of `findDominators` for the index `w`:
step 3 (bucket drain), step 2, `bucket[semi[w]].emplace_back(w)`, and
`link(parent[w], w)` i.e. `ancestor[w] = parent[w]`. -/
def loopIter {V : Type} (t : DomState V) (w : Nat) : DomState V :=
  let t1 := drainBucket w t
  let t2 := processPreds w t1
  let sw := (t2.semi w).getD 0
  let t3 : DomState V := { t2 with bucket := upd t2.bucket sw (t2.bucket sw ++ [w]) }
  { t3 with ancestor := upd t3.ancestor w (t3.parent w), trace := t3.trace ++ [w] }

/-- One iteration of the main loop starting from the vertex: look the index
up (`toIdx`, with the `operator[]` insertion semantics) and run `loopIter`. -/
def loopStep {V : Type} [DecidableEq V] (t : DomState V) (v : V) : DomState V :=
  let p := toIdx t.idx v
  loopIter { t with idx := p.2 } p.1

/-- The main loop: `for (size_t wIdx: m_vertices | reverse | transform(toIdx))`.
`mV` is the full `m_vertices` vector (assigned prefix plus default-constructed
padding).  `toIdx` only touches `m_vertexIndices`, which no loop step writes,
so interleaving the lookups with the steps is equivalent to the lazy
range-v3 pipeline of the source. -/
def mainLoop {V : Type} [DecidableEq V] (mV : List V) (s : DomState V) : DomState V :=
  mV.reverse.foldl loopStep s

/-- The index-level body of one step-4 iteration:
`if (idom[w] != semi[w]) idom[w] = idom[idom[w]]`.  When `idom[w]` is the
`SIZE_MAX` sentinel the C++ read `idom[idom[w]]` is out of bounds; the model
returns `none` for it (the case is unreachable on the runs the theorems
quantify over). -/
def step4Iter {V : Type} (t : DomState V) (w : Nat) : DomState V :=
  let nv : Option Nat := match t.idom w with | some d => t.idom d | none => none
  if t.idom w ≠ t.semi w then { t with idom := upd t.idom w nv } else t

def step4Body {V : Type} [DecidableEq V] (t : DomState V) (v : V) : DomState V :=
  let p := toIdx t.idx v
  step4Iter { t with idx := p.2 } p.1

def step4 {V : Type} [DecidableEq V] (mV : List V) (s : DomState V) : DomState V :=
  (mV.drop 1).foldl step4Body { s with idom := upd s.idom 0 (some 0) }

/-- A constructed `DominatorFinder`.  `numV` is the `_numVertices` constructor
argument (the allocation size of `m_vertices`, `semi`, …, `idom`);
`vDefault` is the value a default-constructed `V` takes (used by
`std::vector<V> m_vertices(_numVertices)` for the unassigned slots). -/
structure Engine (V : Type) where
  numV : Nat
  vDefault : V
  state : DomState V

/-- `DominatorFinder::DominatorFinder(entry, numVertices)`: DFS numbering,
main loop, step 4.  The DFS fuel `numV + 1` exceeds the recursion depth
whenever at most `numV` vertices are reachable. -/
def makeEngine {V : Type} [DecidableEq V] (succs : V → List V) (entry : V)
    (numV : Nat) (vDefault : V) : Engine V :=
  let s0 := dfsStep succs (numV + 1) entry (initState V)
  let mV := s0.verts ++ List.replicate (numV - s0.verts.length) vDefault
  let s1 := mainLoop mV s0
  let s2 := step4 mV s1
  { numV := numV, vDefault := vDefault, state := s2 }

/-- The full `m_vertices` vector: the DFS-assigned prefix padded with
default-constructed vertices up to the allocation size. -/
def Engine.mVerts {V : Type} (e : Engine V) : List V :=
  e.state.verts ++ List.replicate (e.numV - e.state.verts.length) e.vDefault

/-- `m_immediateDominators` as a vector (length `numV` by construction). -/
def Engine.idomVec {V : Type} (e : Engine V) : List (Option Nat) :=
  (List.range e.numV).map e.state.idom

/-- `DominatorFinder::buildDominatorTree`, with its two `solAssert`s made
explicit: `none` models an assertion failure (`m_immediateDominators` empty,
or `m_immediateDominators[index] < index` violated — note the sentinel
`SIZE_MAX` entry of a never-assigned index also fails that comparison).
A `std::map` key with no immediately dominated vertex is absent; the
functional model returns `[]` for it. -/
def treeStep (idoms : List (Option Nat)) (acc : Option (Nat → List Nat)) (i : Nat) :
    Option (Nat → List Nat) :=
  match acc, idoms.getD i none with
  | some t, some d => if d < i then some (upd t d (t d ++ [i])) else none
  | _, _ => none

def buildDominatorTree (idoms : List (Option Nat)) : Option (Nat → List Nat) :=
  if idoms.isEmpty then none
  else ((List.range idoms.length).drop 1).foldl (treeStep idoms) (some (fun _ => []))

/-- `m_dominatorTree` (with `none` for a construction-time assertion failure). -/
def Engine.tree {V : Type} (e : Engine V) : Option (Nat → List Nat) :=
  buildDominatorTree e.idomVec

/-- The two error kinds surfaced by `dominates` / `dominatorsOf`:
`vertexNotFound` is `util::ElementNotFound` (thrown from the catch of
`std::out_of_range`), `invariantViolation` a failing `solAssert`. -/
inductive DomErr where
  | vertexNotFound
  | invariantViolation
deriving DecidableEq, Repr

/-- The `while (idomIdx != 0)` walk of `DominatorFinder::dominates`.
`cur` is the running `idomIdx` (`none` = `SIZE_MAX`); each step asserts
`m_immediateDominators.at(idomIdx) < idomIdx` — the `.at` bounds failure is
caught and surfaces as `vertexNotFound`, the assert failure as
`invariantViolation`. -/
def domWalkAux (idomv : Nat → Option Nat) (numV aIdx : Nat) :
    Nat → Option Nat → Except DomErr Bool
  | 0, _ => .error .invariantViolation
  | fuel + 1, cur =>
    if cur = some 0 then .ok (decide (aIdx = 0))
    else if cur = some aIdx then .ok true
    else
      match cur with
      | none => .error .vertexNotFound
      | some c =>
        if c < numV then
          match idomv c with
          | some nxt =>
            if nxt < c then domWalkAux idomv numV aIdx fuel (some nxt)
            else .error .invariantViolation
          | none => .error .invariantViolation
        else .error .vertexNotFound

/-- `DominatorFinder::dominates`.  The leading `solAssert`s check that
`m_vertexIndices` and `m_immediateDominators` are non-empty; the two map
lookups use `.at`, whose `std::out_of_range` is caught and rethrown as
`ElementNotFound`. -/
def Engine.dominates {V : Type} [DecidableEq V] (e : Engine V) (a b : V) :
    Except DomErr Bool :=
  if e.state.verts.isEmpty then .error .invariantViolation
  else if e.numV = 0 then .error .invariantViolation
  else
    match e.state.idx a, e.state.idx b with
    | some aIdx, some bIdx =>
      if aIdx = bIdx then .ok true
      else if bIdx < e.numV then
        domWalkAux e.state.idom e.numV aIdx (e.numV + 1) (e.state.idom bIdx)
      else .error .vertexNotFound
    | _, _ => .error .vertexNotFound

/-- The collecting walk of `DominatorFinder::dominatorsOf`: per step, assert
`idom.at(c) < c`, push `m_vertices.at(c)`, move to `idom[c]`. -/
def domListAux {V : Type} (idomv : Nat → Option Nat) (numV : Nat) (mV : List V) :
    Nat → Option Nat → Except DomErr (List V)
  | 0, _ => .error .invariantViolation
  | fuel + 1, cur =>
    match cur with
    | some 0 => .ok []
    | none => .error .vertexNotFound
    | some c =>
      if c < numV then
        match idomv c with
        | some nxt =>
          if nxt < c then
            match mV[c]? with
            | some vc =>
              match domListAux idomv numV mV fuel (some nxt) with
              | .ok rest => .ok (vc :: rest)
              | .error err => .error err
            | none => .error .vertexNotFound
          else .error .invariantViolation
        | none => .error .invariantViolation
      else .error .vertexNotFound

/-- `DominatorFinder::dominatorsOf`: empty result for the entry, otherwise the
chain of strict dominators from `idom[index(v)]` with the entry vertex
(`m_vertices[0]`) appended last. -/
def Engine.dominatorsOf {V : Type} [DecidableEq V] (e : Engine V) (v : V) :
    Except DomErr (List V) :=
  if e.mVerts.isEmpty then .error .invariantViolation
  else if e.state.verts.isEmpty then .error .invariantViolation
  else if e.numV = 0 then .error .invariantViolation
  else
    match e.state.idx v with
    | none => .error .vertexNotFound
    | some i =>
      if i = 0 then .ok []
      else if i < e.numV then
        match domListAux e.state.idom e.numV e.mVerts (e.numV + 1) (e.state.idom i) with
        | .ok l => .ok (l ++ [e.mVerts.getD 0 e.vDefault])
        | .error err => .error err
      else .error .vertexNotFound

/-- The DFS with the guard's `semi[dfIdx]` reads instrumented: the second
component accumulates every index at which the successor-enumeration guard
reads the `semi` array (the read happens whether or not the branch is taken).
Same traversal as `dfsStep` otherwise. -/
def dfsReads {V : Type} [DecidableEq V] (succs : V → List V) :
    Nat → V → DomState V × List Nat → DomState V × List Nat
  | 0, _, sr => sr
  | fuel + 1, v, sr =>
    if (sr.1.idx v).isSome then sr
    else
      let s := sr.1
      let i := s.verts.length
      let s1 : DomState V :=
        { s with
          verts := s.verts ++ [v], idx := updV s.idx v i,
          semi := upd s.semi i (some i), label := upd s.label i i }
      (succs v).foldl
        (fun tr w =>
          let t := tr.1
          let reads1 := tr.2 ++ [t.verts.length]
          let t1 : DomState V × List Nat :=
            if t.semi t.verts.length = none then
              dfsReads succs fuel w
                ({ t with parent := upd t.parent t.verts.length (some ((t.idx v).getD 0)) },
                 reads1)
            else (t, reads1)
          let wi := (t1.1.idx w).getD 0
          ({ t1.1 with preds := upd t1.1.preds wi (insertSorted ((t1.1.idx v).getD 0) (t1.1.preds wi)) },
           t1.2))
        (s1, sr.2)

/-! ### Reachability -/

/-- Reachability from the entry along the successor enumeration. -/
inductive Reaches {V : Type} (succs : V → List V) (entry : V) : V → Prop
  | base : Reaches succs entry entry
  | step {u w : V} : Reaches succs entry u → w ∈ succs u → Reaches succs entry w

/-! ### Basic lemmas about the array model -/

theorem upd_same {α : Type} (f : Nat → α) (i : Nat) (x : α) : upd f i x i = x := by
  simp [upd]

theorem upd_ne {α : Type} (f : Nat → α) {i j : Nat} (x : α) (h : j ≠ i) :
    upd f i x j = f j := by
  simp [upd, h]

theorem updV_same {V : Type} [DecidableEq V] (f : V → Option Nat) (v : V) (i : Nat) :
    updV f v i v = some i := by
  simp [updV]

theorem updV_ne {V : Type} [DecidableEq V] (f : V → Option Nat) {v w : V} (i : Nat)
    (h : w ≠ v) : updV f v i w = f w := by
  simp [updV, h]

theorem optLt_irrefl (a : Option Nat) : optLt a a = false := by
  cases a <;> simp [optLt]

theorem optLt_some {a b : Nat} : optLt (some a) (some b) = true ↔ a < b := by
  simp [optLt]

theorem mem_insertSorted {x y : Nat} : ∀ {l : List Nat}, y ∈ insertSorted x l ↔ y = x ∨ y ∈ l := by
  intro l
  induction l with
  | nil => simp [insertSorted]
  | cons z zs ih =>
    by_cases h1 : x < z
    · simp [insertSorted, h1]
    · by_cases h2 : x = z
      · subst h2
        simp only [insertSorted, if_neg h1, if_pos rfl]
        constructor
        · intro h; exact Or.inr h
        · rintro (rfl | h)
          · exact List.mem_cons_self _ _
          · exact h
      · simp only [insertSorted, if_neg h1, if_neg h2, List.mem_cons, ih]
        tauto

theorem self_mem_insertSorted (x : Nat) (l : List Nat) : x ∈ insertSorted x l :=
  mem_insertSorted.2 (Or.inl rfl)

theorem mem_of_mem_insertSorted {x y : Nat} {l : List Nat} (h : y ∈ l) :
    y ∈ insertSorted x l := mem_insertSorted.2 (Or.inr h)

theorem getElem?_some_lt {α : Type} {l : List α} {i : Nat} {a : α} (h : l[i]? = some a) :
    i < l.length := by
  by_contra hg
  rw [List.getElem?_eq_none (Nat.le_of_not_lt hg)] at h
  exact Option.noConfusion h

theorem foldl_proj {α β γ : Type} (f : α → β → α) (g : α → γ)
    (h : ∀ a b, g (f a b) = g a) : ∀ (l : List β) (a : α), g (l.foldl f a) = g a := by
  intro l
  induction l with
  | nil => intro a; rfl
  | cons b bs ih => intro a; rw [List.foldl_cons, ih, h]

/-! ### Verification of the DFS numbering phase -/

/-- The fields the DFS never touches. -/
def dfsFrame {V : Type} (s : DomState V) :
    (Nat → Option Nat) × (Nat → List Nat) × (Nat → Option Nat) × List Nat :=
  (s.ancestor, s.bucket, s.idom, s.trace)

theorem dfsStep_of_assigned {V : Type} [DecidableEq V] (succs : V → List V) (fuel : Nat)
    (v : V) (s : DomState V) (h : (s.idx v).isSome) : dfsStep succs fuel v s = s := by
  cases fuel with
  | zero => rfl
  | succ fuel => rw [dfsStep, if_pos h]

theorem dfsSucc_frame {V : Type} [DecidableEq V] (inner : V → DomState V → DomState V) (v : V)
    (hinner : ∀ w t, dfsFrame (inner w t) = dfsFrame t) (t : DomState V) (w : V) :
    dfsFrame (dfsSucc inner v t w) = dfsFrame t := by
  simp only [dfsSucc]
  by_cases h : t.semi t.verts.length = none
  · simp only [if_pos h]
    exact hinner w _
  · simp only [if_neg h]
    rfl

theorem dfsStep_frame {V : Type} [DecidableEq V] (succs : V → List V) :
    ∀ (fuel : Nat) (v : V) (s : DomState V), dfsFrame (dfsStep succs fuel v s) = dfsFrame s := by
  intro fuel
  induction fuel with
  | zero => intro v s; rfl
  | succ fuel ih =>
    intro v s
    rw [dfsStep]
    by_cases h : (s.idx v).isSome
    · rw [if_pos h]
    · rw [if_neg h]
      rw [foldl_proj _ _ (fun t w => dfsSucc_frame _ v (fun w t => ih w t) t w)]
      rfl

/-- State extension along the DFS: the vertex list grows at the back, the
index map and the predecessor sets only grow. -/
structure Ext {V : Type} (s s' : DomState V) : Prop where
  verts : s.verts <+: s'.verts
  idx : ∀ v i, s.idx v = some i → s'.idx v = some i
  preds : ∀ j q, q ∈ s.preds j → q ∈ s'.preds j

theorem Ext.rfl' {V : Type} (s : DomState V) : Ext s s :=
  ⟨List.prefix_rfl, fun _ _ h => h, fun _ _ h => h⟩

theorem Ext.comp {V : Type} {s t u : DomState V} (h1 : Ext s t) (h2 : Ext t u) : Ext s u :=
  ⟨h1.verts.trans h2.verts, fun v i h => h2.idx v i (h1.idx v i h),
   fun j q h => h2.preds j q (h1.preds j q h)⟩

theorem Ext.len_le {V : Type} {s s' : DomState V} (h : Ext s s') :
    s.verts.length ≤ s'.verts.length := h.verts.length_le

/-- The state invariant of the DFS phase. -/
structure DfsGood {V : Type} (s : DomState V) : Prop where
  bij : ∀ v i, s.idx v = some i ↔ s.verts[i]? = some v
  semiEq : ∀ j, s.semi j = if j < s.verts.length then some j else none
  labelEq : ∀ j, s.label j = if j < s.verts.length then j else 0
  parentLt : ∀ j p, s.parent j = some p → p < j
  predsLt : ∀ j q, q ∈ s.preds j → q < s.verts.length
  predsHigh : ∀ j, s.verts.length ≤ j → s.preds j = []

theorem DfsGood.idx_lt {V : Type} {s : DomState V} (h : DfsGood s) {v : V} {i : Nat}
    (hi : s.idx v = some i) : i < s.verts.length :=
  getElem?_some_lt ((h.bij v i).1 hi)

/-- All edges out of `u` have been recorded: every successor is assigned and
`u`'s index is in its predecessor set. -/
def Closed {V : Type} (succs : V → List V) (s : DomState V) (u : V) : Prop :=
  ∀ w ∈ succs u, ∃ iu iw, s.idx u = some iu ∧ s.idx w = some iw ∧ iu ∈ s.preds iw

theorem Closed.mono {V : Type} {succs : V → List V} {s s' : DomState V} {u : V}
    (hext : Ext s s') (h : Closed succs s u) : Closed succs s' u := by
  intro w hw
  obtain ⟨iu, iw, h1, h2, h3⟩ := h w hw
  exact ⟨iu, iw, hext.idx u iu h1, hext.idx w iw h2, hext.preds iw iu h3⟩

/-- Edge (`v`'s index in `preds` of `w`'s index) has been recorded, with `iv`
the index of the enumerating vertex. -/
def DoneSucc {V : Type} (iv : Nat) (t : DomState V) (w : V) : Prop :=
  ∃ iw, t.idx w = some iw ∧ iv ∈ t.preds iw

theorem DoneSucc.mono_ext {V : Type} {iv : Nat} {t t' : DomState V} {w : V}
    (hext : Ext t t') (h : DoneSucc iv t w) : DoneSucc iv t' w := by
  obtain ⟨iw, h1, h2⟩ := h
  exact ⟨iw, hext.idx w iw h1, hext.preds iw iv h2⟩

/-- The contract of one `dfs(v)` call. -/
structure DfsRes {V : Type} (succs : V → List V) (R : Finset V) (s : DomState V) (v : V)
    (s' : DomState V) : Prop where
  good : DfsGood s'
  ext : Ext s s'
  pstable : ∀ j, j ≤ s.verts.length → s'.parent j = s.parent j
  vIn : (s'.idx v).isSome
  vSlot : s.idx v = none → s'.idx v = some s.verts.length
  subR : ∀ u k, s'.idx u = some k → u ∈ R
  closedNew : ∀ u, (s'.idx u).isSome → (s.idx u).isSome ∨ Closed succs s' u
  newParent : ∀ j, s.verts.length < j → j < s'.verts.length →
    ∃ p, s'.parent j = some p ∧ p < j ∧ p ∈ s'.preds j

theorem ext_filter_card_le {V : Type} [DecidableEq V] (R : Finset V) {s s' : DomState V}
    (h : Ext s s') :
    (R.filter (fun u => s'.idx u = none)).card ≤ (R.filter (fun u => s.idx u = none)).card := by
  apply Finset.card_le_card
  intro u hu
  simp only [Finset.mem_filter] at hu ⊢
  refine ⟨hu.1, ?_⟩
  cases hc : s.idx u with
  | none => rfl
  | some k =>
    rw [h.idx u k hc] at hu
    exact absurd hu.2 (by simp)

theorem dfsAssign_len {V : Type} [DecidableEq V] (v : V) (s : DomState V) :
    (dfsAssign v s).verts.length = s.verts.length + 1 := by
  simp [dfsAssign]

theorem dfsAssign_good {V : Type} [DecidableEq V] {s : DomState V} {v : V} (hg : DfsGood s)
    (hv : s.idx v = none) : DfsGood (dfsAssign v s) := by
  constructor
  · intro u i
    simp only [dfsAssign]
    by_cases hu : u = v
    · subst hu
      rw [updV_same]
      constructor
      · rintro ⟨rfl⟩
        exact List.getElem?_concat_length _ _
      · intro h
        rcases Nat.lt_trichotomy i s.verts.length with hlt | rfl | hgt
        · rw [List.getElem?_append_left hlt] at h
          exact absurd ((hg.bij u i).2 h) (by rw [hv]; simp)
        · rfl
        · rw [List.getElem?_eq_none (by simp; omega)] at h
          exact Option.noConfusion h
    · rw [updV_ne _ _ hu]
      rw [hg.bij u i]
      rcases Nat.lt_trichotomy i s.verts.length with hlt | rfl | hgt
      · rw [List.getElem?_append_left hlt]
      · rw [List.getElem?_eq_none (le_refl _), List.getElem?_concat_length]
        constructor
        · intro h; exact Option.noConfusion h
        · intro h; exact absurd (Option.some.inj h).symm hu
      · rw [List.getElem?_eq_none (Nat.le_of_lt hgt),
          List.getElem?_eq_none (by simp; omega)]
  · intro j
    simp only [dfsAssign, List.length_append, List.length_cons, List.length_nil]
    by_cases hj : j = s.verts.length
    · subst hj
      rw [upd_same, if_pos (by omega)]
    · rw [upd_ne _ _ hj, hg.semiEq]
      by_cases hlt : j < s.verts.length
      · rw [if_pos hlt, if_pos (by omega)]
      · rw [if_neg hlt, if_neg (by omega)]
  · intro j
    simp only [dfsAssign, List.length_append, List.length_cons, List.length_nil]
    by_cases hj : j = s.verts.length
    · subst hj
      rw [upd_same, if_pos (by omega)]
    · rw [upd_ne _ _ hj, hg.labelEq]
      by_cases hlt : j < s.verts.length
      · rw [if_pos hlt, if_pos (by omega)]
      · rw [if_neg hlt, if_neg (by omega)]
  · exact hg.parentLt
  · intro j q hq
    have := hg.predsLt j q hq
    simp only [dfsAssign, List.length_append, List.length_cons, List.length_nil]
    omega
  · intro j hj
    apply hg.predsHigh
    simp only [dfsAssign, List.length_append, List.length_cons, List.length_nil] at hj
    omega

theorem dfsAssign_ext {V : Type} [DecidableEq V] {s : DomState V} {v : V}
    (hv : s.idx v = none) : Ext s (dfsAssign v s) := by
  constructor
  · exact ⟨[v], rfl⟩
  · intro u i h
    simp only [dfsAssign]
    have hu : u ≠ v := by
      rintro rfl
      rw [hv] at h
      exact Option.noConfusion h
    rw [updV_ne _ _ hu]
    exact h
  · intro j q h
    exact h

theorem dfsAssign_idx_self {V : Type} [DecidableEq V] (s : DomState V) (v : V) :
    (dfsAssign v s).idx v = some s.verts.length := by
  simp [dfsAssign, updV_same]

theorem dfsAssign_parent {V : Type} [DecidableEq V] (s : DomState V) (v : V) :
    (dfsAssign v s).parent = s.parent := rfl

/-- The invariant carried through the successor fold of one `dfs(v)` call.
`s` is the state at the head of the call, `s1 = dfsAssign v s`. -/
structure FoldInv {V : Type} (succs : V → List V) (R : Finset V) (v : V)
    (s s1 t : DomState V) : Prop where
  good : DfsGood t
  ext : Ext s1 t
  pst : ∀ j, j ≤ s.verts.length → t.parent j = s1.parent j
  subR : ∀ u k, t.idx u = some k → u ∈ R
  closedAcc : ∀ u, (t.idx u).isSome → (s.idx u).isSome ∨ u = v ∨ Closed succs t u
  npar : ∀ j, s.verts.length < j → j < t.verts.length →
    ∃ p, t.parent j = some p ∧ p < j ∧ p ∈ t.preds j

/-- One step of the successor fold preserves the invariant and records the
edge to the processed successor. -/
theorem dfsSucc_spec {V : Type} [DecidableEq V] (succs : V → List V) (R : Finset V)
    (hclosed : ∀ u ∈ R, ∀ w ∈ succs u, w ∈ R) (fuel : Nat)
    (IH : ∀ (w : V) (t : DomState V), w ∈ R → (∀ u k, t.idx u = some k → u ∈ R) →
      DfsGood t → (R.filter (fun u => t.idx u = none)).card < fuel →
      DfsRes succs R t w (dfsStep succs fuel w t))
    (v : V) (hvR : v ∈ R) (s s1 : DomState V)
    (hs1idx : s1.idx v = some s.verts.length)
    (hlen1 : s.verts.length < s1.verts.length)
    (hfu : (R.filter (fun u => s1.idx u = none)).card < fuel)
    (t : DomState V) (w : V) (hw : w ∈ succs v) (inv : FoldInv succs R v s s1 t) :
    FoldInv succs R v s s1 (dfsSucc (dfsStep succs fuel) v t w) ∧
      DoneSucc s.verts.length (dfsSucc (dfsStep succs fuel) v t w) w ∧
      Ext t (dfsSucc (dfsStep succs fuel) v t w) := by
  have hidxv : t.idx v = some s.verts.length := inv.ext.idx v _ hs1idx
  have hlen_t : s.verts.length < t.verts.length := Nat.lt_of_lt_of_le hlen1 inv.ext.len_le
  have hguard : t.semi t.verts.length = none := by
    rw [inv.good.semiEq]
    simp
  have htm_good : DfsGood
      { t with parent := upd t.parent t.verts.length (some ((t.idx v).getD 0)) } := by
    refine ⟨inv.good.bij, inv.good.semiEq, inv.good.labelEq, ?_, inv.good.predsLt,
      inv.good.predsHigh⟩
    intro j p hp
    have hp' : upd t.parent t.verts.length (some ((t.idx v).getD 0)) j = some p := hp
    by_cases hj : j = t.verts.length
    · subst hj
      rw [upd_same, hidxv, Option.getD_some] at hp'
      have : s.verts.length = p := Option.some.inj hp'
      omega
    · rw [upd_ne _ _ hj] at hp'
      exact inv.good.parentLt j p hp'
  have htm_card : (R.filter (fun u =>
      ({ t with parent := upd t.parent t.verts.length (some ((t.idx v).getD 0)) }
        : DomState V).idx u = none)).card < fuel :=
    Nat.lt_of_le_of_lt
      (ext_filter_card_le R (⟨inv.ext.verts, inv.ext.idx, inv.ext.preds⟩ :
        Ext s1 { t with parent := upd t.parent t.verts.length (some ((t.idx v).getD 0)) }))
      hfu
  have res : DfsRes succs R
      { t with parent := upd t.parent t.verts.length (some ((t.idx v).getD 0)) } w
      (dfsStep succs fuel w
        { t with parent := upd t.parent t.verts.length (some ((t.idx v).getD 0)) }) :=
    IH w _ (hclosed v hvR w hw) inv.subR htm_good htm_card
  simp only [dfsSucc, if_pos hguard]
  revert res
  generalize ht1 : dfsStep succs fuel w
    { t with parent := upd t.parent t.verts.length (some ((t.idx v).getD 0)) } = t1
  intro res
  obtain ⟨iw, hiw⟩ : ∃ iw, t1.idx w = some iw := Option.isSome_iff_exists.1 res.vIn
  have hiw_lt : iw < t1.verts.length := res.good.idx_lt hiw
  have ht1v : t1.idx v = some s.verts.length := res.ext.idx v _ hidxv
  have htm_pst : ∀ j, j ≤ t.verts.length → t1.parent j =
      upd t.parent t.verts.length (some ((t.idx v).getD 0)) j := res.pstable
  rw [hiw, ht1v]
  simp only [Option.getD_some]
  have hext_t1r : Ext t1
      { t1 with preds := upd t1.preds iw (insertSorted s.verts.length (t1.preds iw)) } := by
    refine ⟨List.prefix_rfl, fun _ _ h => h, ?_⟩
    intro j q hq
    by_cases hj : j = iw
    · subst hj
      show q ∈ upd t1.preds j (insertSorted s.verts.length (t1.preds j)) j
      rw [upd_same]
      exact mem_of_mem_insertSorted hq
    · show q ∈ upd t1.preds iw (insertSorted s.verts.length (t1.preds iw)) j
      rw [upd_ne _ _ hj]
      exact hq
  have hext_tr : Ext t
      { t1 with preds := upd t1.preds iw (insertSorted s.verts.length (t1.preds iw)) } :=
    Ext.comp (Ext.comp (⟨List.prefix_rfl, fun _ _ h => h, fun _ _ h => h⟩ :
      Ext t { t with parent := upd t.parent t.verts.length (some ((t.idx v).getD 0)) })
      res.ext) hext_t1r
  have hlen_t1 : t.verts.length ≤ t1.verts.length := res.ext.len_le
  refine ⟨?_, ?_, hext_tr⟩
  · constructor
    · -- DfsGood
      refine ⟨res.good.bij, res.good.semiEq, res.good.labelEq, res.good.parentLt, ?_, ?_⟩
      · intro j q hq
        have hq' : q ∈ upd t1.preds iw (insertSorted s.verts.length (t1.preds iw)) j := hq
        show q < t1.verts.length
        by_cases hj : j = iw
        · rw [hj, upd_same] at hq'
          rcases mem_insertSorted.1 hq' with rfl | hq2
          · omega
          · exact res.good.predsLt _ _ hq2
        · rw [upd_ne _ _ hj] at hq'
          exact res.good.predsLt j q hq'
      · intro j hj
        have hj' : t1.verts.length ≤ j := hj
        have hjne : j ≠ iw := by omega
        show upd t1.preds iw (insertSorted s.verts.length (t1.preds iw)) j = []
        rw [upd_ne _ _ hjne]
        exact res.good.predsHigh j hj'
    · exact Ext.comp inv.ext hext_tr
    · -- pst
      intro j hj
      show t1.parent j = s1.parent j
      rw [htm_pst j (by omega), upd_ne _ _ (by omega : j ≠ t.verts.length)]
      exact inv.pst j hj
    · exact res.subR
    · -- closedAcc
      intro u hu
      rcases res.closedNew u hu with h | h
      · rcases inv.closedAcc u h with h' | h' | h'
        · exact Or.inl h'
        · exact Or.inr (Or.inl h')
        · exact Or.inr (Or.inr (Closed.mono hext_tr h'))
      · exact Or.inr (Or.inr (Closed.mono hext_t1r h))
    · -- npar
      intro j h1 h2
      rcases Nat.lt_trichotomy j t.verts.length with hj | hj | hj
      · obtain ⟨p, hp, hplt, hpm⟩ := inv.npar j h1 hj
        refine ⟨p, ?_, hplt, hext_tr.preds _ _ hpm⟩
        show t1.parent j = some p
        rw [htm_pst j (by omega), upd_ne _ _ (by omega : j ≠ t.verts.length)]
        exact hp
      · subst hj
        by_cases hw0 : (t.idx w).isSome
        · have h2' : t.verts.length < t1.verts.length := h2
          have heq :
              t1 = { t with parent := upd t.parent t.verts.length (some ((t.idx v).getD 0)) } := by
            rw [← ht1]
            exact dfsStep_of_assigned succs fuel w _ hw0
          have hlen_eq : t1.verts.length = t.verts.length := by rw [heq]
          omega
        · have hw1 : t.idx w = none := Option.not_isSome_iff_eq_none.1 hw0
          have hslot := res.vSlot hw1
          rw [hiw] at hslot
          have hiweq : iw = t.verts.length := Option.some.inj hslot
          refine ⟨s.verts.length, ?_, hlen_t, ?_⟩
          · show t1.parent t.verts.length = some s.verts.length
            rw [htm_pst _ (le_refl _), upd_same, hidxv]
            rfl
          · show s.verts.length ∈
              upd t1.preds iw (insertSorted s.verts.length (t1.preds iw)) t.verts.length
            rw [← hiweq, upd_same]
            exact self_mem_insertSorted _ _
      · obtain ⟨p, hp, hplt, hpm⟩ := res.newParent j hj h2
        exact ⟨p, hp, hplt, hext_t1r.preds _ _ hpm⟩
  · -- DoneSucc for w
    refine ⟨iw, hiw, ?_⟩
    show s.verts.length ∈ upd t1.preds iw (insertSorted s.verts.length (t1.preds iw)) iw
    rw [upd_same]
    exact self_mem_insertSorted _ _

/-- The successor fold of one `dfs(v)` call: all enumerated edges end up
recorded and the invariant is preserved. -/
theorem dfs_fold_spec {V : Type} [DecidableEq V] (succs : V → List V) (R : Finset V)
    (hclosed : ∀ u ∈ R, ∀ w ∈ succs u, w ∈ R) (fuel : Nat)
    (IH : ∀ (w : V) (t : DomState V), w ∈ R → (∀ u k, t.idx u = some k → u ∈ R) →
      DfsGood t → (R.filter (fun u => t.idx u = none)).card < fuel →
      DfsRes succs R t w (dfsStep succs fuel w t))
    (v : V) (hvR : v ∈ R) (s s1 : DomState V)
    (hs1idx : s1.idx v = some s.verts.length)
    (hlen1 : s.verts.length < s1.verts.length)
    (hfu : (R.filter (fun u => s1.idx u = none)).card < fuel) :
    ∀ (L : List V), (∀ w ∈ L, w ∈ succs v) →
      ∀ t, FoldInv succs R v s s1 t →
        (∀ w ∈ succs v, w ∈ L ∨ DoneSucc s.verts.length t w) →
        FoldInv succs R v s s1 (L.foldl (dfsSucc (dfsStep succs fuel) v) t) ∧
          ∀ w ∈ succs v, DoneSucc s.verts.length (L.foldl (dfsSucc (dfsStep succs fuel) v) t) w := by
  intro L
  induction L with
  | nil =>
    intro _ t inv hall
    refine ⟨inv, fun w hw => ?_⟩
    rcases hall w hw with h | h
    · exact absurd h (List.not_mem_nil w)
    · exact h
  | cons w L ihL =>
    intro hL t inv hall
    have hw : w ∈ succs v := hL w (List.mem_cons_self w L)
    obtain ⟨inv', done', hext'⟩ :=
      dfsSucc_spec succs R hclosed fuel IH v hvR s s1 hs1idx hlen1 hfu t w hw inv
    rw [List.foldl_cons]
    refine ihL (fun w' hw' => hL w' (List.mem_cons_of_mem _ hw')) _ inv' ?_
    intro w' hw'
    rcases hall w' hw' with h | h
    · rcases List.mem_cons.1 h with rfl | h2
      · exact Or.inr done'
      · exact Or.inl h2
    · exact Or.inr (DoneSucc.mono_ext hext' h)

/-- The contract of `dfs`: given enough fuel, one call preserves the state
invariant, assigns the argument, and closes every newly assigned vertex. -/
theorem dfs_spec {V : Type} [DecidableEq V] (succs : V → List V) (R : Finset V)
    (hclosed : ∀ u ∈ R, ∀ w ∈ succs u, w ∈ R) :
    ∀ (fuel : Nat) (v : V) (s : DomState V), v ∈ R →
      (∀ u k, s.idx u = some k → u ∈ R) → DfsGood s →
      (R.filter (fun u => s.idx u = none)).card < fuel →
      DfsRes succs R s v (dfsStep succs fuel v s) := by
  intro fuel
  induction fuel with
  | zero =>
    intro v s _ _ _ h
    exact absurd h (Nat.not_lt_zero _)
  | succ fuel IH =>
    intro v s hvR hsub hgood hcard
    by_cases hv : (s.idx v).isSome
    · rw [dfsStep, if_pos hv]
      refine ⟨hgood, Ext.rfl' s, fun j _ => rfl, hv, ?_, hsub, fun u h => Or.inl h, ?_⟩
      · intro h
        rw [h] at hv
        exact absurd hv (by simp)
      · intro j h1 h2
        exact absurd h2 (by omega)
    · rw [dfsStep, if_neg hv]
      have hvnone : s.idx v = none := Option.not_isSome_iff_eq_none.1 hv
      have hs1idx := dfsAssign_idx_self s v
      have hlen1 : s.verts.length < (dfsAssign v s).verts.length := by
        rw [dfsAssign_len]
        omega
      have hg1 : DfsGood (dfsAssign v s) := dfsAssign_good hgood hvnone
      have hext1 : Ext s (dfsAssign v s) := dfsAssign_ext hvnone
      have hv_mem : v ∈ R.filter (fun u => s.idx u = none) :=
        Finset.mem_filter.2 ⟨hvR, hvnone⟩
      have hfu : (R.filter (fun u => (dfsAssign v s).idx u = none)).card < fuel := by
        have herase : R.filter (fun u => (dfsAssign v s).idx u = none)
            = (R.filter (fun u => s.idx u = none)).erase v := by
          ext u
          simp only [Finset.mem_filter, Finset.mem_erase]
          constructor
          · intro ⟨h1, h2⟩
            by_cases hu : u = v
            · subst hu
              rw [show (dfsAssign u s).idx u = some s.verts.length from
                dfsAssign_idx_self s u] at h2
              exact absurd h2 (by simp)
            · refine ⟨hu, h1, ?_⟩
              rwa [show (dfsAssign v s).idx u = s.idx u from updV_ne _ _ hu] at h2
          · intro ⟨h1, h2, h3⟩
            exact ⟨h2, by rwa [show (dfsAssign v s).idx u = s.idx u from updV_ne _ _ h1]⟩
        rw [herase, Finset.card_erase_of_mem hv_mem]
        have hpos : 0 < (R.filter (fun u => s.idx u = none)).card :=
          Finset.card_pos.2 ⟨v, hv_mem⟩
        omega
      have inv0 : FoldInv succs R v s (dfsAssign v s) (dfsAssign v s) := by
        refine ⟨hg1, Ext.rfl' _, fun _ _ => rfl, ?_, ?_, ?_⟩
        · intro u k h
          by_cases hu : u = v
          · subst hu
            exact hvR
          · exact hsub u k (by rwa [show (dfsAssign v s).idx u = s.idx u from updV_ne _ _ hu] at h)
        · intro u hu
          by_cases hu' : u = v
          · exact Or.inr (Or.inl hu')
          · refine Or.inl ?_
            rwa [show (dfsAssign v s).idx u = s.idx u from updV_ne _ _ hu'] at hu
        · intro j h1 h2
          rw [dfsAssign_len] at h2
          exact absurd h2 (by omega)
      obtain ⟨invf, hdone⟩ := dfs_fold_spec succs R hclosed fuel IH v hvR s (dfsAssign v s)
        hs1idx hlen1 hfu (succs v) (fun _ h => h) (dfsAssign v s) inv0 (fun w hw => Or.inl hw)
      have hvidx : (List.foldl (dfsSucc (dfsStep succs fuel) v) (dfsAssign v s)
          (succs v)).idx v = some s.verts.length := invf.ext.idx v _ hs1idx
      refine ⟨invf.good, hext1.comp invf.ext, ?_, ?_, fun _ => hvidx, invf.subR, ?_, invf.npar⟩
      · intro j hj
        rw [invf.pst j hj]
        rfl
      · rw [hvidx]
        rfl
      · intro u hu
        rcases invf.closedAcc u hu with h | h | h
        · exact Or.inl h
        · subst h
          refine Or.inr ?_
          intro w hw
          obtain ⟨iw, hiw, hm⟩ := hdone w hw
          exact ⟨s.verts.length, iw, hvidx, hiw, hm⟩
        · exact Or.inr h

/-! ### Verification of the main loop (steps 2 and 3) -/

/-- `ancestor` entries point strictly downwards and stay below `n`. -/
def AncInv (n : Nat) (anc : Nat → Option Nat) : Prop :=
  ∀ x a, anc x = some a → a < x ∧ a < n

/-- `label` entries never exceed their index and stay below `n`. -/
def LabInv (n : Nat) (lab : Nat → Nat) : Prop :=
  ∀ x, lab x ≤ x ∧ lab x < n

theorem compressPath_none {semi anc : Nat → Option Nat} {lab : Nat → Nat} {fuel v : Nat}
    (h : anc v = none) : compressPath semi (fuel + 1) anc lab v = (anc, lab) := by
  simp only [compressPath, h]

theorem compressPath_anc_none {semi anc : Nat → Option Nat} {lab : Nat → Nat} {fuel v u : Nat}
    (hv : anc v = some u) (hu : anc u = none) :
    compressPath semi (fuel + 1) anc lab v = (anc, lab) := by
  simp only [compressPath, hv, hu]

theorem compressPath_succ {semi anc : Nat → Option Nat} {lab : Nat → Nat} {fuel v u u2 : Nat}
    (hv : anc v = some u) (hu : anc u = some u2) :
    compressPath semi (fuel + 1) anc lab v =
      (upd (compressPath semi fuel anc lab u).1 v ((compressPath semi fuel anc lab u).1 u),
       if optLt (semi ((compressPath semi fuel anc lab u).2 u))
           (semi ((compressPath semi fuel anc lab u).2 v)) then
         upd (compressPath semi fuel anc lab u).2 v ((compressPath semi fuel anc lab u).2 u)
       else (compressPath semi fuel anc lab u).2) := by
  simp only [compressPath, hv, hu]

theorem compressPath_inv {n : Nat} (semi : Nat → Option Nat) :
    ∀ (fuel : Nat) (anc : Nat → Option Nat) (lab : Nat → Nat) (v : Nat),
      AncInv n anc → LabInv n lab →
      AncInv n (compressPath semi fuel anc lab v).1 ∧
        LabInv n (compressPath semi fuel anc lab v).2 := by
  intro fuel
  induction fuel with
  | zero => intro anc lab v ha hl; exact ⟨ha, hl⟩
  | succ fuel ih =>
    intro anc lab v ha hl
    cases hv : anc v with
    | none => rw [compressPath_none hv]; exact ⟨ha, hl⟩
    | some u =>
      cases hu : anc u with
      | none => rw [compressPath_anc_none hv hu]; exact ⟨ha, hl⟩
      | some u2 =>
        have e1 : (compressPath semi (fuel + 1) anc lab v).1 =
            upd (compressPath semi fuel anc lab u).1 v
              ((compressPath semi fuel anc lab u).1 u) := by
          rw [compressPath_succ hv hu]
        have e2 : (compressPath semi (fuel + 1) anc lab v).2 =
            (if optLt (semi ((compressPath semi fuel anc lab u).2 u))
                (semi ((compressPath semi fuel anc lab u).2 v)) then
              upd (compressPath semi fuel anc lab u).2 v ((compressPath semi fuel anc lab u).2 u)
            else (compressPath semi fuel anc lab u).2) := by
          rw [compressPath_succ hv hu]
        rw [e1, e2]
        obtain ⟨ha', hl'⟩ := ih anc lab u ha hl
        have huv : u < v := (ha v u hv).1
        constructor
        · intro x a hx
          by_cases hxv : x = v
          · subst hxv
            rw [upd_same] at hx
            have h1 := ha' u a hx
            exact ⟨by omega, h1.2⟩
          · rw [upd_ne _ _ hxv] at hx
            exact ha' x a hx
        · by_cases hc : optLt (semi ((compressPath semi fuel anc lab u).2 u))
              (semi ((compressPath semi fuel anc lab u).2 v)) = true
          · rw [if_pos hc]
            intro x
            by_cases hxv : x = v
            · subst hxv
              rw [upd_same]
              have h1 := hl' u
              exact ⟨by omega, h1.2⟩
            · rw [upd_ne _ _ hxv]
              exact hl' x
          · rw [if_neg hc]
            exact hl'

theorem evalStep_none {semi anc : Nat → Option Nat} {lab : Nat → Nat} {v : Nat}
    (h : anc v = none) : evalStep semi anc lab v = (anc, lab, v) := by
  simp only [evalStep, h]

theorem evalStep_some {semi anc : Nat → Option Nat} {lab : Nat → Nat} {v u : Nat}
    (h : anc v = some u) :
    evalStep semi anc lab v = ((compressPath semi (v + 1) anc lab v).1,
      (compressPath semi (v + 1) anc lab v).2, (compressPath semi (v + 1) anc lab v).2 v) := by
  simp only [evalStep, h]

theorem evalStep_spec {n : Nat} (semi : Nat → Option Nat) (anc : Nat → Option Nat)
    (lab : Nat → Nat) (v : Nat) (ha : AncInv n anc) (hl : LabInv n lab) (hv : v < n) :
    AncInv n (evalStep semi anc lab v).1 ∧ LabInv n (evalStep semi anc lab v).2.1 ∧
      (evalStep semi anc lab v).2.2 ≤ v ∧ (evalStep semi anc lab v).2.2 < n := by
  cases hv' : anc v with
  | none => rw [evalStep_none hv']; exact ⟨ha, hl, le_refl v, hv⟩
  | some u =>
    rw [evalStep_some hv']
    obtain ⟨ha', hl'⟩ := compressPath_inv semi (v + 1) anc lab v ha hl
    exact ⟨ha', hl', (hl' v).1, (hl' v).2⟩

/-- The loop invariant: iterations `n−1 … m` have been performed. -/
structure LoopInv {V : Type} (n m : Nat) (t : DomState V) : Prop where
  semiLow : ∀ j, j < m → t.semi j = some j
  semiProc : ∀ j, m ≤ j → j < n → ∃ sj, t.semi j = some sj ∧ sj ≤ j ∧ (1 ≤ j → sj < j)
  semiHigh : ∀ j, n ≤ j → t.semi j = none
  labI : LabInv n t.label
  ancI : AncInv n t.ancestor
  buck : ∀ b j, j ∈ t.bucket b → j < n ∧ m ≤ j
  idomSet : ∀ j d, t.idom j = some d → 1 ≤ j ∧ j < n ∧ d < j
  idomDone : ∀ j, 1 ≤ j → j < n → m ≤ j →
    (∃ d, t.idom j = some d) ∨ ∃ b, b < m ∧ j ∈ t.bucket b

theorem LoopInv.semiAll {V : Type} {n m : Nat} {t : DomState V} (inv : LoopInv n m t) :
    ∀ j, j < n → ∃ sj, t.semi j = some sj ∧ sj ≤ j := by
  intro j hj
  by_cases hm : j < m
  · exact ⟨j, inv.semiLow j hm, le_refl j⟩
  · obtain ⟨sj, h1, h2, _⟩ := inv.semiProc j (by omega) hj
    exact ⟨sj, h1, h2⟩

/-- Effect of draining one bucket: `ancestor`/`label` invariants are kept,
`idom` gets assigned (with a strictly smaller value) for every drained index,
and nothing else changes. -/
theorem drain_fold_spec {V : Type} (n w : Nat) :
    ∀ (l : List Nat) (u : DomState V),
      (∀ j ∈ l, j < n ∧ w < j) →
      AncInv n u.ancestor → LabInv n u.label →
      (∀ j d, u.idom j = some d → 1 ≤ j ∧ j < n ∧ d < j) →
      (l.foldl (drainBody w) u).verts = u.verts ∧
      (l.foldl (drainBody w) u).idx = u.idx ∧
      (l.foldl (drainBody w) u).parent = u.parent ∧
      (l.foldl (drainBody w) u).preds = u.preds ∧
      (l.foldl (drainBody w) u).semi = u.semi ∧
      (l.foldl (drainBody w) u).bucket = u.bucket ∧
      (l.foldl (drainBody w) u).trace = u.trace ∧
      AncInv n (l.foldl (drainBody w) u).ancestor ∧
      LabInv n (l.foldl (drainBody w) u).label ∧
      (∀ j d, (l.foldl (drainBody w) u).idom j = some d → 1 ≤ j ∧ j < n ∧ d < j) ∧
      (∀ j, (∃ d, u.idom j = some d) → ∃ d, (l.foldl (drainBody w) u).idom j = some d) ∧
      (∀ j ∈ l, ∃ d, (l.foldl (drainBody w) u).idom j = some d) := by
  intro l
  induction l with
  | nil =>
    intro u _ ha hl hi
    exact ⟨rfl, rfl, rfl, rfl, rfl, rfl, rfl, ha, hl, hi, fun j h => h, by simp⟩
  | cons vIdx l ih =>
    intro u hmem ha hl hi
    have hvn : vIdx < n := (hmem vIdx (List.mem_cons_self _ _)).1
    have hwv : w < vIdx := (hmem vIdx (List.mem_cons_self _ _)).2
    obtain ⟨ha1, hl1, hle, hlt⟩ := evalStep_spec u.semi u.ancestor u.label vIdx ha hl hvn
    have hidom_eq : (drainBody w u vIdx).idom = upd u.idom vIdx
        (some (if optLt (u.semi (evalStep u.semi u.ancestor u.label vIdx).2.2) (u.semi vIdx)
          then (evalStep u.semi u.ancestor u.label vIdx).2.2 else w)) := rfl
    have hstep_idom : ∀ j d, (drainBody w u vIdx).idom j = some d → 1 ≤ j ∧ j < n ∧ d < j := by
      intro j d hd
      rw [hidom_eq] at hd
      by_cases hj : j = vIdx
      · rw [hj, upd_same] at hd
        have hdval := Option.some.inj hd
        refine ⟨by omega, by omega, ?_⟩
        by_cases hc : optLt (u.semi (evalStep u.semi u.ancestor u.label vIdx).2.2)
            (u.semi vIdx) = true
        · rw [if_pos hc] at hdval
          have hdle : d ≤ vIdx := hdval ▸ hle
          rcases Nat.lt_or_ge d vIdx with h | h
          · omega
          · have hdj : d = vIdx := by omega
            rw [hdval, hdj, optLt_irrefl] at hc
            exact absurd hc (by simp)
        · rw [if_neg hc] at hdval
          omega
      · rw [upd_ne _ _ hj] at hd
        exact hi j d hd
    have hstep_pers : ∀ j, (∃ d, u.idom j = some d) →
        ∃ d, (drainBody w u vIdx).idom j = some d := by
      intro j hd
      rw [hidom_eq]
      by_cases hj : j = vIdx
      · rw [hj, upd_same]
        exact ⟨_, rfl⟩
      · rw [upd_ne _ _ hj]
        exact hd
    obtain ⟨e1, e2, e3, e4, e5, e6, e7, ra, rl, ri, rp, rm⟩ :=
      ih (drainBody w u vIdx) (fun j hj => hmem j (List.mem_cons_of_mem _ hj)) ha1 hl1 hstep_idom
    rw [List.foldl_cons]
    refine ⟨e1, e2, e3, e4, e5, e6, e7, ra, rl, ri, ?_, ?_⟩
    · intro j hd
      exact rp j (hstep_pers j hd)
    · intro j hj
      rcases List.mem_cons.1 hj with rfl | hj2
      · refine rp j ?_
        rw [hidom_eq, upd_same]
        exact ⟨_, rfl⟩
      · exact rm j hj2

/-- Effect of step 2 for `w`: `semi[w]` only decreases (staying `some`), a
predecessor below `w` forces it strictly below `w`, and everything except
`ancestor`/`label`/`semi[w]` is untouched. -/
theorem preds_fold_spec {V : Type} (n w : Nat) (hwn : w < n) :
    ∀ (l : List Nat) (u : DomState V),
      (∀ j ∈ l, j < n) →
      AncInv n u.ancestor → LabInv n u.label →
      (∀ j, j < n → ∃ sj, u.semi j = some sj ∧ sj ≤ j) →
      (∀ s0, u.semi w = some s0 → s0 ≤ w) →
      ((l.foldl (predsBody w) u).verts = u.verts ∧
       (l.foldl (predsBody w) u).idx = u.idx ∧
       (l.foldl (predsBody w) u).parent = u.parent ∧
       (l.foldl (predsBody w) u).preds = u.preds ∧
       (l.foldl (predsBody w) u).bucket = u.bucket ∧
       (l.foldl (predsBody w) u).idom = u.idom ∧
       (l.foldl (predsBody w) u).trace = u.trace) ∧
      AncInv n (l.foldl (predsBody w) u).ancestor ∧
      LabInv n (l.foldl (predsBody w) u).label ∧
      (∀ j, j ≠ w → (l.foldl (predsBody w) u).semi j = u.semi j) ∧
      (∀ s0, u.semi w = some s0 →
        ∃ s1, (l.foldl (predsBody w) u).semi w = some s1 ∧ s1 ≤ s0) ∧
      (∀ p ∈ l, p < w → (∃ s0, u.semi w = some s0) →
        ∃ s1, (l.foldl (predsBody w) u).semi w = some s1 ∧ s1 < w) := by
  intro l
  induction l with
  | nil =>
    intro u _ ha hl _ _
    refine ⟨⟨rfl, rfl, rfl, rfl, rfl, rfl, rfl⟩, ha, hl, fun _ _ => rfl, ?_, ?_⟩
    · intro s0 h
      exact ⟨s0, h, le_refl s0⟩
    · intro p hp
      exact absurd hp (List.not_mem_nil p)
  | cons p l ih =>
    intro u hmem ha hl hall hs0w
    have hpn : p < n := hmem p (List.mem_cons_self _ _)
    obtain ⟨ha1, hl1, hle, hlt⟩ := evalStep_spec u.semi u.ancestor u.label p ha hl hpn
    obtain ⟨su, hsu, hsule⟩ := hall (evalStep u.semi u.ancestor u.label p).2.2 hlt
    rw [List.foldl_cons]
    by_cases hc : optLt (u.semi (evalStep u.semi u.ancestor u.label p).2.2) (u.semi w) = true
    · -- update branch
      have hstep : predsBody w u p =
          { u with ancestor := (evalStep u.semi u.ancestor u.label p).1,
                   label := (evalStep u.semi u.ancestor u.label p).2.1,
                   semi := upd u.semi w (u.semi (evalStep u.semi u.ancestor u.label p).2.2) } := by
        simp only [predsBody]
        rw [if_pos hc]
      obtain ⟨s0, hs0, hs0lew⟩ := hall w hwn
      have hsus0 : su < s0 := by
        rw [hsu, hs0] at hc
        exact optLt_some.1 hc
      have hs0w' : s0 ≤ w := hs0w s0 hs0
      have hstep_semi_w : (predsBody w u p).semi w = some su := by
        rw [hstep]
        show upd u.semi w (u.semi (evalStep u.semi u.ancestor u.label p).2.2) w = some su
        rw [upd_same, hsu]
      have hstep_semi_ne : ∀ j, j ≠ w → (predsBody w u p).semi j = u.semi j := by
        intro j hj
        rw [hstep]
        show upd u.semi w (u.semi (evalStep u.semi u.ancestor u.label p).2.2) j = u.semi j
        rw [upd_ne _ _ hj]
      have hall1 : ∀ j, j < n → ∃ sj, (predsBody w u p).semi j = some sj ∧ sj ≤ j := by
        intro j hj
        by_cases hjw : j = w
        · subst hjw
          exact ⟨su, hstep_semi_w, by omega⟩
        · rw [hstep_semi_ne j hjw]
          exact hall j hj
      have hs0w1 : ∀ s0', (predsBody w u p).semi w = some s0' → s0' ≤ w := by
        intro s0' h
        rw [hstep_semi_w] at h
        have : su = s0' := Option.some.inj h
        omega
      obtain ⟨⟨f1, f2, f3, f4, f5, f6, f7⟩, ra, rl, rne, rmono, rstrict⟩ :=
        ih (predsBody w u p) (fun j hj => hmem j (List.mem_cons_of_mem _ hj))
          (by rw [hstep]; exact ha1) (by rw [hstep]; exact hl1) hall1 hs0w1
      have hv1 : (predsBody w u p).verts = u.verts := by rw [hstep]
      have hv2 : (predsBody w u p).idx = u.idx := by rw [hstep]
      have hv3 : (predsBody w u p).parent = u.parent := by rw [hstep]
      have hv4 : (predsBody w u p).preds = u.preds := by rw [hstep]
      have hv5 : (predsBody w u p).bucket = u.bucket := by rw [hstep]
      have hv6 : (predsBody w u p).idom = u.idom := by rw [hstep]
      have hv7 : (predsBody w u p).trace = u.trace := by rw [hstep]
      refine ⟨⟨f1.trans hv1, f2.trans hv2, f3.trans hv3, f4.trans hv4, f5.trans hv5,
        f6.trans hv6, f7.trans hv7⟩, ra, rl, ?_, ?_, ?_⟩
      · intro j hj
        rw [rne j hj, hstep_semi_ne j hj]
      · intro s0' hs0'
        have : s0 = s0' := by
          rw [hs0] at hs0'
          exact Option.some.inj hs0'
        subst this
        obtain ⟨s1, h1, h2⟩ := rmono su hstep_semi_w
        exact ⟨s1, h1, by omega⟩
      · intro p' _ _ _
        obtain ⟨s1, h1, h2⟩ := rmono su hstep_semi_w
        exact ⟨s1, h1, by omega⟩
    · -- no update
      have hstep : predsBody w u p =
          { u with ancestor := (evalStep u.semi u.ancestor u.label p).1,
                   label := (evalStep u.semi u.ancestor u.label p).2.1 } := by
        simp only [predsBody]
        rw [if_neg hc]
      have hstep_semi : (predsBody w u p).semi = u.semi := by rw [hstep]
      obtain ⟨⟨f1, f2, f3, f4, f5, f6, f7⟩, ra, rl, rne, rmono, rstrict⟩ :=
        ih (predsBody w u p) (fun j hj => hmem j (List.mem_cons_of_mem _ hj))
          (by rw [hstep]; exact ha1) (by rw [hstep]; exact hl1)
          (by rw [hstep_semi]; exact hall) (by rw [hstep_semi]; exact hs0w)
      have hv1 : (predsBody w u p).verts = u.verts := by rw [hstep]
      have hv2 : (predsBody w u p).idx = u.idx := by rw [hstep]
      have hv3 : (predsBody w u p).parent = u.parent := by rw [hstep]
      have hv4 : (predsBody w u p).preds = u.preds := by rw [hstep]
      have hv5 : (predsBody w u p).bucket = u.bucket := by rw [hstep]
      have hv6 : (predsBody w u p).idom = u.idom := by rw [hstep]
      have hv7 : (predsBody w u p).trace = u.trace := by rw [hstep]
      refine ⟨⟨f1.trans hv1, f2.trans hv2, f3.trans hv3, f4.trans hv4, f5.trans hv5,
        f6.trans hv6, f7.trans hv7⟩, ra, rl, ?_, ?_, ?_⟩
      · intro j hj
        rw [rne j hj, hstep_semi]
      · intro s0 hs0
        exact rmono s0 (by rw [hstep_semi]; exact hs0)
      · intro p' hp' hpw hex
        rcases List.mem_cons.1 hp' with rfl | hp2
        · -- the head itself is below w and no update happened:
          -- the current value was already strictly below w
          obtain ⟨s0, hs0⟩ := hex
          have hs0su : s0 ≤ su := by
            rw [hsu, hs0] at hc
            have := optLt_some.not.1 hc
            omega
          obtain ⟨s1, h1, h2⟩ := rmono s0 (by rw [hstep_semi]; exact hs0)
          exact ⟨s1, h1, by omega⟩
        · refine rstrict p' hp2 hpw ?_
          rw [hstep_semi]
          exact hex

/-- One full iteration of the main loop for index `m` re-establishes the
invariant at level `m`, leaving `verts`/`idx`/`parent`/`preds` untouched and
appending `m` to the trace. -/
theorem loopIter_spec {V : Type} (n : Nat) (m : Nat) (hm : m < n)
    (t : DomState V)
    (hparLt : ∀ j p, t.parent j = some p → p < j)
    (hpar : ∀ j, 1 ≤ j → j < n → ∃ p, t.parent j = some p ∧ p < j ∧ p ∈ t.preds j)
    (hpreds : ∀ j q, q ∈ t.preds j → q < n)
    (inv : LoopInv n (m + 1) t) :
    LoopInv n m (loopIter t m) ∧
      (loopIter t m).verts = t.verts ∧ (loopIter t m).idx = t.idx ∧
      (loopIter t m).parent = t.parent ∧ (loopIter t m).preds = t.preds ∧
      (loopIter t m).trace = t.trace ++ [m] := by
  have hbm : ∀ j ∈ t.bucket m, j < n ∧ m < j := by
    intro j hj
    have := inv.buck m j hj
    omega
  obtain ⟨d1, d2, d3, d4, d5, d6, d7, da, dl, di, dp, dm⟩ :=
    drain_fold_spec n m (t.bucket m) t hbm inv.ancI inv.labI inv.idomSet
  have hT1 : (t.bucket m).foldl (drainBody m) t = drainBucket m t := rfl
  rw [hT1] at d1 d2 d3 d4 d5 d6 d7 da dl di dp dm
  have hplist : ∀ j ∈ (drainBucket m t).preds m, j < n := by
    rw [d4]
    intro j hj
    exact hpreds m j hj
  have hallT1 : ∀ j, j < n → ∃ sj, (drainBucket m t).semi j = some sj ∧ sj ≤ j := by
    rw [d5]
    exact inv.semiAll
  have hsemi_m_T1 : (drainBucket m t).semi m = some m := by
    rw [d5]
    exact inv.semiLow m (by omega)
  have hs0T1 : ∀ s0, (drainBucket m t).semi m = some s0 → s0 ≤ m := by
    intro s0 h
    rw [hsemi_m_T1] at h
    have := Option.some.inj h
    omega
  obtain ⟨⟨p1, p2, p3, p4, p5, p6, p7⟩, pa, pl, pne, pmono, pstrict⟩ :=
    preds_fold_spec n m hm ((drainBucket m t).preds m) (drainBucket m t) hplist da dl
      hallT1 hs0T1
  have hT2 : ((drainBucket m t).preds m).foldl (predsBody m) (drainBucket m t)
      = processPreds m (drainBucket m t) := rfl
  rw [hT2] at p1 p2 p3 p4 p5 p6 p7 pa pl pne pmono pstrict
  have c1 : (processPreds m (drainBucket m t)).verts = t.verts := p1.trans d1
  have c2 : (processPreds m (drainBucket m t)).idx = t.idx := p2.trans d2
  have c3 : (processPreds m (drainBucket m t)).parent = t.parent := p3.trans d3
  have c4 : (processPreds m (drainBucket m t)).preds = t.preds := p4.trans d4
  have c5 : (processPreds m (drainBucket m t)).bucket = t.bucket := p5.trans d6
  have c7 : (processPreds m (drainBucket m t)).trace = t.trace := p7.trans d7
  obtain ⟨s1, hs1, hs1le⟩ := pmono m hsemi_m_T1
  have hstrict : 1 ≤ m → s1 < m := by
    intro h1
    obtain ⟨p, hp, hplt, hpm⟩ := hpar m h1 hm
    have hpm' : p ∈ (drainBucket m t).preds m := by
      rw [d4]
      exact hpm
    obtain ⟨s1', hs1', hlt'⟩ := pstrict p hpm' hplt ⟨m, hsemi_m_T1⟩
    have heq : s1 = s1' := Option.some.inj (hs1.symm.trans hs1')
    omega
  have hfin : loopIter t m = { (processPreds m (drainBucket m t)) with
      bucket := upd (processPreds m (drainBucket m t)).bucket
        (((processPreds m (drainBucket m t)).semi m).getD 0)
        ((processPreds m (drainBucket m t)).bucket
          (((processPreds m (drainBucket m t)).semi m).getD 0) ++ [m]),
      ancestor := upd (processPreds m (drainBucket m t)).ancestor m
        ((processPreds m (drainBucket m t)).parent m),
      trace := (processPreds m (drainBucket m t)).trace ++ [m] } := rfl
  have hsw : ((processPreds m (drainBucket m t)).semi m).getD 0 = s1 := by
    rw [hs1]
    rfl
  rw [hsw, c3, c5, c7] at hfin
  rw [hfin]
  refine ⟨?_, c1, c2, c3, c4, rfl⟩
  constructor
  · -- semiLow
    intro j hj
    show (processPreds m (drainBucket m t)).semi j = some j
    rw [pne j (by omega), d5]
    exact inv.semiLow j (by omega)
  · -- semiProc
    intro j hmj hjn
    by_cases hjm : j = m
    · refine ⟨s1, ?_, by omega, fun _ => by have := hstrict (by omega); omega⟩
      show (processPreds m (drainBucket m t)).semi j = some s1
      rw [hjm]
      exact hs1
    · show ∃ sj, (processPreds m (drainBucket m t)).semi j = some sj ∧ sj ≤ j ∧ (1 ≤ j → sj < j)
      rw [pne j hjm, d5]
      exact inv.semiProc j (by omega) hjn
  · -- semiHigh
    intro j hj
    show (processPreds m (drainBucket m t)).semi j = none
    rw [pne j (by omega), d5]
    exact inv.semiHigh j hj
  · exact pl
  · -- ancI
    intro x a hx
    have hx' : upd (processPreds m (drainBucket m t)).ancestor m (t.parent m) x = some a := hx
    by_cases hxm : x = m
    · subst hxm
      rw [upd_same] at hx'
      have hplm := hparLt x a hx'
      exact ⟨hplm, by omega⟩
    · rw [upd_ne _ _ hxm] at hx'
      exact pa x a hx'
  · -- buck
    intro b j hj
    have hj' : j ∈ upd t.bucket s1 (t.bucket s1 ++ [m]) b := hj
    by_cases hb : b = s1
    · rw [hb, upd_same] at hj'
      rcases List.mem_append.1 hj' with h | h
      · have := inv.buck s1 j h
        omega
      · have hjm : j = m := by
          rcases List.mem_singleton.1 h with rfl
          rfl
        subst hjm
        omega
    · rw [upd_ne _ _ hb] at hj'
      have := inv.buck b j hj'
      omega
  · -- idomSet
    intro j d hd
    have hd' : (processPreds m (drainBucket m t)).idom j = some d := hd
    rw [p6] at hd'
    exact di j d hd'
  · -- idomDone
    intro j h1 hjn hmj
    by_cases hjm : j = m
    · refine Or.inr ⟨s1, hstrict (by omega), ?_⟩
      show j ∈ upd t.bucket s1 (t.bucket s1 ++ [m]) s1
      rw [upd_same, hjm]
      exact List.mem_append.2 (Or.inr (List.mem_singleton.2 rfl))
    · rcases inv.idomDone j h1 hjn (by omega) with ⟨d, hd⟩ | ⟨b, hb, hbm2⟩
      · left
        obtain ⟨d', hd'⟩ := dp j ⟨d, hd⟩
        refine ⟨d', ?_⟩
        show (processPreds m (drainBucket m t)).idom j = some d'
        rw [p6]
        exact hd'
      · by_cases hbm3 : b = m
        · left
          rw [hbm3] at hbm2
          obtain ⟨d', hd'⟩ := dm j hbm2
          refine ⟨d', ?_⟩
          show (processPreds m (drainBucket m t)).idom j = some d'
          rw [p6]
          exact hd'
        · refine Or.inr ⟨b, by omega, ?_⟩
          show j ∈ upd t.bucket s1 (t.bucket s1 ++ [m]) b
          by_cases hbs : b = s1
          · rw [hbs, upd_same]
            exact List.mem_append.2 (Or.inl (by rw [← hbs]; exact hbm2))
          · rw [upd_ne _ _ hbs]
            exact hbm2

/-- Descending fold of the main loop over indices `m−1 … 0`. -/
theorem loop_fold_spec {V : Type} (n : Nat) :
    ∀ (m : Nat), m ≤ n → ∀ (t : DomState V),
      (∀ j p, t.parent j = some p → p < j) →
      (∀ j, 1 ≤ j → j < n → ∃ p, t.parent j = some p ∧ p < j ∧ p ∈ t.preds j) →
      (∀ j q, q ∈ t.preds j → q < n) →
      LoopInv n m t →
      LoopInv n 0 (((List.range m).reverse).foldl loopIter t) ∧
      (((List.range m).reverse).foldl loopIter t).verts = t.verts ∧
      (((List.range m).reverse).foldl loopIter t).idx = t.idx ∧
      (((List.range m).reverse).foldl loopIter t).parent = t.parent ∧
      (((List.range m).reverse).foldl loopIter t).preds = t.preds ∧
      (((List.range m).reverse).foldl loopIter t).trace = t.trace ++ (List.range m).reverse := by
  intro m
  induction m with
  | zero =>
    intro _ t _ _ _ inv
    refine ⟨inv, rfl, rfl, rfl, rfl, ?_⟩
    simp
  | succ m ih =>
    intro hmn t h1 h2 h3 inv
    have hrange : (List.range (m + 1)).reverse = m :: (List.range m).reverse := by
      rw [List.range_succ, List.reverse_append]
      rfl
    rw [hrange, List.foldl_cons]
    obtain ⟨inv', e1, e2, e3, e4, e5⟩ := loopIter_spec n m (by omega) t h1 h2 h3 inv
    obtain ⟨invf, f1, f2, f3, f4, f5⟩ := ih (by omega) (loopIter t m)
      (by rw [e3]; exact h1) (by rw [e3, e4]; exact h2) (by rw [e4]; exact h3) inv'
    refine ⟨invf, f1.trans e1, f2.trans e2, f3.trans e3, f4.trans e4, ?_⟩
    rw [f5, e5, List.append_assoc]
    rfl

/-! ### Reduction of the vertex-level folds to index-level folds -/

theorem predsBody_idx {V : Type} (w : Nat) (u : DomState V) (v : Nat) :
    (predsBody w u v).idx = u.idx := by
  simp only [predsBody]
  split <;> rfl

theorem drainBucket_idx {V : Type} (w : Nat) (t : DomState V) :
    (drainBucket w t).idx = t.idx := by
  show ((t.bucket w).foldl (drainBody w) t).idx = t.idx
  exact foldl_proj (drainBody w) (fun s => s.idx) (fun _ _ => rfl) _ t

theorem processPreds_idx {V : Type} (w : Nat) (t : DomState V) :
    (processPreds w t).idx = t.idx := by
  show ((t.preds w).foldl (predsBody w) t).idx = t.idx
  exact foldl_proj (predsBody w) (fun s => s.idx) (fun a b => predsBody_idx w a b) _ t

theorem loopIter_idx {V : Type} (t : DomState V) (w : Nat) :
    (loopIter t w).idx = t.idx := by
  show (processPreds w (drainBucket w t)).idx = t.idx
  rw [processPreds_idx, drainBucket_idx]

theorem toIdx_of_some {V : Type} [DecidableEq V] {m : V → Option Nat} {v : V} {i : Nat}
    (h : m v = some i) : toIdx m v = (i, m) := by
  unfold toIdx
  rw [h]

theorem loopStep_of_some {V : Type} [DecidableEq V] {t : DomState V} {v : V} {i : Nat}
    (h : t.idx v = some i) : loopStep t v = loopIter t i := by
  unfold loopStep
  rw [toIdx_of_some h]

theorem foldl_loopStep_eq {V : Type} [DecidableEq V] :
    ∀ (l : List V) (t : DomState V), (∀ v ∈ l, (t.idx v).isSome) →
      l.foldl loopStep t = (l.map (fun v => (t.idx v).getD 0)).foldl loopIter t := by
  intro l
  induction l with
  | nil => intro t _; rfl
  | cons v l ih =>
    intro t hl
    obtain ⟨i, hi⟩ := Option.isSome_iff_exists.1 (hl v (List.mem_cons_self _ _))
    rw [List.foldl_cons, List.map_cons, List.foldl_cons, loopStep_of_some hi, hi]
    show (l.foldl loopStep (loopIter t i)) =
      (l.map (fun v => (t.idx v).getD 0)).foldl loopIter (loopIter t i)
    rw [ih (loopIter t i) (by rw [loopIter_idx]; exact fun w hw => hl w (List.mem_cons_of_mem _ hw)),
      loopIter_idx]

theorem step4Iter_idx {V : Type} (t : DomState V) (w : Nat) :
    (step4Iter t w).idx = t.idx := by
  simp only [step4Iter]
  split <;> rfl

theorem step4Body_of_some {V : Type} [DecidableEq V] {t : DomState V} {v : V} {i : Nat}
    (h : t.idx v = some i) : step4Body t v = step4Iter t i := by
  unfold step4Body
  rw [toIdx_of_some h]

theorem foldl_step4Body_eq {V : Type} [DecidableEq V] :
    ∀ (l : List V) (t : DomState V), (∀ v ∈ l, (t.idx v).isSome) →
      l.foldl step4Body t = (l.map (fun v => (t.idx v).getD 0)).foldl step4Iter t := by
  intro l
  induction l with
  | nil => intro t _; rfl
  | cons v l ih =>
    intro t hl
    obtain ⟨i, hi⟩ := Option.isSome_iff_exists.1 (hl v (List.mem_cons_self _ _))
    rw [List.foldl_cons, List.map_cons, List.foldl_cons, step4Body_of_some hi, hi]
    show (l.foldl step4Body (step4Iter t i)) =
      (l.map (fun v => (t.idx v).getD 0)).foldl step4Iter (step4Iter t i)
    rw [ih (step4Iter t i)
        (by rw [step4Iter_idx]; exact fun w hw => hl w (List.mem_cons_of_mem _ hw)),
      step4Iter_idx]

theorem verts_map_idx {V : Type} (s : DomState V)
    (hbij : ∀ v i, s.idx v = some i ↔ s.verts[i]? = some v) :
    s.verts.map (fun v => (s.idx v).getD 0) = List.range s.verts.length := by
  apply List.ext_getElem
  · simp
  · intro i h1 h2
    have hi : i < s.verts.length := by simpa using h1
    simp only [List.getElem_map, List.getElem_range]
    have hv : s.verts[i]? = some (s.verts.get ⟨i, hi⟩) := List.getElem?_eq_getElem hi
    show (s.idx (s.verts.get ⟨i, hi⟩)).getD 0 = i
    rw [(hbij (s.verts.get ⟨i, hi⟩) i).2 hv]
    rfl

/-! ### Step 4 (the idom fix-up pass) -/

/-- The invariant established by step 4: the entry is its own immediate
dominator, every other index has a strictly smaller one, and indices past the
vertex count are unset. -/
def Inv4 {V : Type} (n : Nat) (t : DomState V) : Prop :=
  t.idom 0 = some 0 ∧ (∀ j, 1 ≤ j → j < n → ∃ d, t.idom j = some d ∧ d < j) ∧
    (∀ j, n ≤ j → t.idom j = none)

theorem step4Iter_inv {V : Type} (n : Nat) (t : DomState V) (w : Nat) (hw1 : 1 ≤ w)
    (hwn : w < n) (inv : Inv4 n t) : Inv4 n (step4Iter t w) ∧
      (step4Iter t w).idx = t.idx ∧ (step4Iter t w).verts = t.verts ∧
      (step4Iter t w).trace = t.trace := by
  obtain ⟨hd0, hset, hhigh⟩ := inv
  obtain ⟨d, hd, hdlt⟩ := hset w hw1 hwn
  have hframe : (step4Iter t w).idx = t.idx ∧ (step4Iter t w).verts = t.verts ∧
      (step4Iter t w).trace = t.trace := by
    simp only [step4Iter]
    split <;> exact ⟨rfl, rfl, rfl⟩
  refine ⟨?_, hframe⟩
  simp only [step4Iter]
  rw [hd]
  split
  · -- idom[w] := idom[d]
    refine ⟨?_, ?_, ?_⟩
    · show upd t.idom w (t.idom d) 0 = some 0
      rw [upd_ne _ _ (by omega : (0 : Nat) ≠ w)]
      exact hd0
    · intro j hj1 hjn
      by_cases hjw : j = w
      · have hval : ∃ d', t.idom d = some d' ∧ d' < w := by
          by_cases hdz : d = 0
          · subst hdz
            exact ⟨0, hd0, by omega⟩
          · obtain ⟨d', hd', hlt'⟩ := hset d (by omega) (by omega)
            exact ⟨d', hd', by omega⟩
        obtain ⟨d', hd', hlt'⟩ := hval
        refine ⟨d', ?_, by omega⟩
        show upd t.idom w (t.idom d) j = some d'
        rw [hjw, upd_same]
        exact hd'
      · obtain ⟨e, he, helt⟩ := hset j hj1 hjn
        refine ⟨e, ?_, helt⟩
        show upd t.idom w (t.idom d) j = some e
        rw [upd_ne _ _ hjw]
        exact he
    · intro j hj
      show upd t.idom w (t.idom d) j = none
      rw [upd_ne _ _ (by omega : j ≠ w)]
      exact hhigh j hj
  · exact ⟨hd0, hset, hhigh⟩

theorem step4_fold_inv {V : Type} (n : Nat) :
    ∀ (l : List Nat) (t : DomState V), (∀ w ∈ l, 1 ≤ w ∧ w < n) → Inv4 n t →
      Inv4 n (l.foldl step4Iter t) ∧ (l.foldl step4Iter t).idx = t.idx ∧
        (l.foldl step4Iter t).verts = t.verts ∧ (l.foldl step4Iter t).trace = t.trace := by
  intro l
  induction l with
  | nil => intro t _ inv; exact ⟨inv, rfl, rfl, rfl⟩
  | cons w l ih =>
    intro t hl inv
    have hw := hl w (List.mem_cons_self _ _)
    obtain ⟨inv', i1, i2, i3⟩ := step4Iter_inv n t w hw.1 hw.2 inv
    rw [List.foldl_cons]
    obtain ⟨invf, f1, f2, f3⟩ := ih (step4Iter t w)
      (fun w' hw' => hl w' (List.mem_cons_of_mem _ hw')) inv'
    exact ⟨invf, f1.trans i1, f2.trans i2, f3.trans i3⟩

/-! ### The assembled constructor invariant -/

theorem initState_good (V : Type) [DecidableEq V] : DfsGood (initState V) := by
  refine ⟨?_, ?_, ?_, ?_, ?_, ?_⟩
  · intro v i
    simp [initState]
  · intro j
    simp [initState]
  · intro j
    simp [initState]
  · intro j p hp
    simp [initState] at hp
  · intro j q hq
    simp [initState] at hq
  · intro j _
    rfl

/-- Combined effect of the main loop and step 4 on a post-DFS state whose
assigned prefix has length exactly `n`. -/
theorem loop_and_step4_spec {V : Type} [DecidableEq V] (n : Nat) (hn : 1 ≤ n)
    (s0 : DomState V)
    (hlen : s0.verts.length = n)
    (hbij : ∀ v i, s0.idx v = some i ↔ s0.verts[i]? = some v)
    (hsemi : ∀ j, s0.semi j = if j < n then some j else none)
    (hlab : ∀ j, s0.label j = if j < n then j else 0)
    (hparLt : ∀ j p, s0.parent j = some p → p < j)
    (hpar : ∀ j, 1 ≤ j → j < n → ∃ p, s0.parent j = some p ∧ p < j ∧ p ∈ s0.preds j)
    (hpredsLt : ∀ j q, q ∈ s0.preds j → q < n)
    (hanc : s0.ancestor = fun _ => none)
    (hbuck : s0.bucket = fun _ => [])
    (hidom : s0.idom = fun _ => none)
    (htrace : s0.trace = []) :
    Inv4 n (step4 s0.verts (mainLoop s0.verts s0)) ∧
      (step4 s0.verts (mainLoop s0.verts s0)).verts = s0.verts ∧
      (step4 s0.verts (mainLoop s0.verts s0)).idx = s0.idx ∧
      (step4 s0.verts (mainLoop s0.verts s0)).trace = (List.range n).reverse := by
  have htot : ∀ v ∈ s0.verts, (s0.idx v).isSome := by
    intro v hv
    obtain ⟨⟨i, hilt⟩, hget⟩ := List.mem_iff_get.1 hv
    rw [Option.isSome_iff_exists]
    refine ⟨i, (hbij v i).2 ?_⟩
    rw [List.getElem?_eq_getElem hilt]
    exact congrArg some hget
  have hmap : s0.verts.map (fun v => (s0.idx v).getD 0) = List.range n := by
    rw [verts_map_idx s0 hbij, hlen]
  have hmain : mainLoop s0.verts s0 = ((List.range n).reverse).foldl loopIter s0 := by
    show s0.verts.reverse.foldl loopStep s0 = _
    rw [foldl_loopStep_eq s0.verts.reverse s0 (fun v hv => htot v (List.mem_reverse.1 hv))]
    rw [List.map_reverse, hmap]
  have hinv0 : LoopInv n n s0 := by
    refine ⟨?_, ?_, ?_, ?_, ?_, ?_, ?_, ?_⟩
    · intro j hj
      rw [hsemi j, if_pos hj]
    · intro j h1 h2
      omega
    · intro j hj
      rw [hsemi j, if_neg (by omega)]
    · intro x
      rw [hlab x]
      by_cases hx : x < n
      · rw [if_pos hx]
        exact ⟨le_refl x, hx⟩
      · rw [if_neg hx]
        exact ⟨Nat.zero_le x, by omega⟩
    · intro x a hx
      rw [hanc] at hx
      exact Option.noConfusion hx
    · intro b j hj
      rw [hbuck] at hj
      exact absurd hj (List.not_mem_nil j)
    · intro j d hd
      rw [hidom] at hd
      exact Option.noConfusion hd
    · intro j h1 h2 h3
      omega
  obtain ⟨linv, l1, l2, l3, l4, l5⟩ :=
    loop_fold_spec n n (le_refl n) s0 hparLt hpar hpredsLt hinv0
  rw [← hmain] at linv l1 l2 l3 l4 l5
  rw [htrace, List.nil_append] at l5
  obtain ⟨m, rfl⟩ : ∃ m, n = m + 1 := ⟨n - 1, by omega⟩
  have hstep4 : step4 s0.verts (mainLoop s0.verts s0) =
      (s0.verts.drop 1).foldl step4Body
        { mainLoop s0.verts s0 with idom := upd (mainLoop s0.verts s0).idom 0 (some 0) } := rfl
  have hTidx : ({ mainLoop s0.verts s0 with
      idom := upd (mainLoop s0.verts s0).idom 0 (some 0) } : DomState V).idx = s0.idx := l2
  have htot4 : ∀ v ∈ s0.verts.drop 1,
      (({ mainLoop s0.verts s0 with
        idom := upd (mainLoop s0.verts s0).idom 0 (some 0) } : DomState V).idx v).isSome := by
    intro v hv
    rw [hTidx]
    exact htot v (List.mem_of_mem_drop hv)
  have hred : step4 s0.verts (mainLoop s0.verts s0) =
      ((List.range (m + 1)).drop 1).foldl step4Iter
        { mainLoop s0.verts s0 with
          idom := upd (mainLoop s0.verts s0).idom 0 (some 0) } := by
    rw [hstep4, foldl_step4Body_eq (s0.verts.drop 1) _ htot4]
    have hfun : (fun v => (({ mainLoop s0.verts s0 with
        idom := upd (mainLoop s0.verts s0).idom 0 (some 0) } : DomState V).idx v).getD 0) =
        (fun v => (s0.idx v).getD 0) := by
      funext v
      rw [hTidx]
    rw [hfun, List.map_drop, hmap]
  have hdropmem : ∀ i ∈ (List.range (m + 1)).drop 1, 1 ≤ i ∧ i < m + 1 := by
    intro i hi
    have h3 : i < m + 1 := List.mem_range.1 (List.mem_of_mem_drop hi)
    have hdeq : (List.range (m + 1)).drop 1 = (List.range m).map (· + 1) := by
      rw [List.range_succ_eq_map]
      rfl
    rw [hdeq] at hi
    obtain ⟨j, _, rfl⟩ := List.mem_map.1 hi
    exact ⟨by omega, h3⟩
  have hInv40 : Inv4 (m + 1)
      ({ mainLoop s0.verts s0 with
        idom := upd (mainLoop s0.verts s0).idom 0 (some 0) } : DomState V) := by
    refine ⟨?_, ?_, ?_⟩
    · show upd (mainLoop s0.verts s0).idom 0 (some 0) 0 = some 0
      rw [upd_same]
    · intro j h1 h2
      rcases linv.idomDone j h1 h2 (Nat.zero_le j) with ⟨d, hd⟩ | ⟨b, hb, _⟩
      · obtain ⟨_, _, hdlt⟩ := linv.idomSet j d hd
        refine ⟨d, ?_, hdlt⟩
        show upd (mainLoop s0.verts s0).idom 0 (some 0) j = some d
        rw [upd_ne _ _ (by omega : j ≠ 0)]
        exact hd
      · omega
    · intro j hj
      show upd (mainLoop s0.verts s0).idom 0 (some 0) j = none
      rw [upd_ne _ _ (by omega : j ≠ 0)]
      cases hq : (mainLoop s0.verts s0).idom j with
      | none => rfl
      | some d =>
        obtain ⟨_, hjn, _⟩ := linv.idomSet j d hq
        omega
  obtain ⟨fInv, f1, f2, f3⟩ :=
    step4_fold_inv (m + 1) ((List.range (m + 1)).drop 1) _ hdropmem hInv40
  rw [← hred] at fInv f1 f2 f3
  refine ⟨fInv, ?_, ?_, ?_⟩
  · rw [f2]
    exact l1
  · rw [f1]
    exact l2
  · rw [f3]
    exact l5

/-- Everything the constructor establishes when `_numVertices` equals the
number of vertices reachable from the entry. -/
structure EngineInv {V : Type} (succs : V → List V) (entry : V) (e : Engine V) : Prop where
  hn : 1 ≤ e.numV
  lenEq : e.state.verts.length = e.numV
  bij : ∀ v i, e.state.idx v = some i ↔ e.state.verts[i]? = some v
  reach : ∀ v, (e.state.idx v).isSome ↔ Reaches succs entry v
  entry0 : e.state.idx entry = some 0
  idom0 : e.state.idom 0 = some 0
  idomLt : ∀ j, 1 ≤ j → j < e.numV → ∃ d, e.state.idom j = some d ∧ d < j
  idomHigh : ∀ j, e.numV ≤ j → e.state.idom j = none
  traceEq : e.state.trace = (List.range e.numV).reverse
  mVertsEq : e.mVerts = e.state.verts

/-- The constructor invariant holds whenever the reachable set `R` of the
graph has exactly `n` elements (`n` being the `_numVertices` hint). -/
theorem makeEngine_inv {V : Type} [DecidableEq V] (succs : V → List V) (entry : V)
    (n : Nat) (vd : V) (R : Finset V)
    (hR : ∀ v, v ∈ R ↔ Reaches succs entry v) (hcard : R.card = n) :
    EngineInv succs entry (makeEngine succs entry n vd) := by
  have hclosedR : ∀ u ∈ R, ∀ w ∈ succs u, w ∈ R := by
    intro u hu w hw
    exact (hR w).2 (Reaches.step ((hR u).1 hu) hw)
  have hentR : entry ∈ R := (hR entry).2 Reaches.base
  have hn : 1 ≤ n := by
    rw [← hcard]
    exact Finset.card_pos.2 ⟨entry, hentR⟩
  have hfilter0 : R.filter (fun u => (initState V).idx u = none) = R :=
    Finset.filter_true_of_mem (fun u _ => rfl)
  have res := dfs_spec succs R hclosedR (n + 1) entry (initState V) hentR
    (fun u k h => by simp [initState] at h) (initState_good V)
    (by rw [hfilter0, hcard]; omega)
  have hframe := dfsStep_frame succs (n + 1) entry (initState V)
  obtain ⟨s0, hs0⟩ : ∃ s, dfsStep succs (n + 1) entry (initState V) = s := ⟨_, rfl⟩
  rw [hs0] at res hframe
  have hg := res.good
  have hassigned : ∀ v, (s0.idx v).isSome ↔ Reaches succs entry v := by
    intro v
    constructor
    · intro h
      obtain ⟨i, hi⟩ := Option.isSome_iff_exists.1 h
      exact (hR v).1 (res.subR v i hi)
    · intro h
      induction h with
      | base => exact res.vIn
      | step hu hw ih =>
        rcases res.closedNew _ ih with hinit | hcl
        · exact absurd hinit (by simp [initState])
        · obtain ⟨iu, iw, _, hiw, _⟩ := hcl _ hw
          rw [hiw]
          rfl
  have hnodup : s0.verts.Nodup := by
    rw [List.nodup_iff_injective_get]
    intro a b hab
    have ha : s0.idx (s0.verts.get a) = some a.1 :=
      (hg.bij (s0.verts.get a) a.1).2 (List.getElem?_eq_getElem a.2)
    have hb : s0.idx (s0.verts.get b) = some b.1 :=
      (hg.bij (s0.verts.get b) b.1).2 (List.getElem?_eq_getElem b.2)
    rw [hab] at ha
    exact Fin.ext (Option.some.inj (ha.symm.trans hb))
  have htofin : s0.verts.toFinset = R := by
    ext v
    rw [List.mem_toFinset, hR, ← hassigned v]
    constructor
    · intro hv
      obtain ⟨⟨i, hilt⟩, hget⟩ := List.mem_iff_get.1 hv
      rw [Option.isSome_iff_exists]
      refine ⟨i, (hg.bij v i).2 ?_⟩
      rw [List.getElem?_eq_getElem hilt]
      exact congrArg some hget
    · intro hv
      obtain ⟨i, hi⟩ := Option.isSome_iff_exists.1 hv
      obtain ⟨hlt, heq⟩ := List.getElem?_eq_some.1 ((hg.bij v i).1 hi)
      rw [← heq]
      exact List.getElem_mem hlt
  have hlenn : s0.verts.length = n := by
    rw [← List.toFinset_card_of_nodup hnodup, htofin]
    exact hcard
  have hstate : (makeEngine succs entry n vd).state =
      step4 (s0.verts ++ List.replicate (n - s0.verts.length) vd)
        (mainLoop (s0.verts ++ List.replicate (n - s0.verts.length) vd) s0) := by
    rw [← hs0]
    rfl
  have hmVpad : s0.verts ++ List.replicate (n - s0.verts.length) vd = s0.verts := by
    rw [hlenn, Nat.sub_self]
    simp
  rw [hmVpad] at hstate
  have hanc : s0.ancestor = fun _ => none := congrArg Prod.fst hframe
  have hbuckf : s0.bucket = fun _ => [] := congrArg (fun p => p.2.1) hframe
  have hidomf : s0.idom = fun _ => none := congrArg (fun p => p.2.2.1) hframe
  have htracef : s0.trace = [] := congrArg (fun p => p.2.2.2) hframe
  have hsemi : ∀ j, s0.semi j = if j < n then some j else none := by
    intro j
    rw [← hlenn]
    exact hg.semiEq j
  have hlab : ∀ j, s0.label j = if j < n then j else 0 := by
    intro j
    rw [← hlenn]
    exact hg.labelEq j
  have hpar : ∀ j, 1 ≤ j → j < n → ∃ p, s0.parent j = some p ∧ p < j ∧ p ∈ s0.preds j := by
    intro j h1 h2
    refine res.newParent j h1 ?_
    rw [hlenn]
    exact h2
  have hpredsLt : ∀ j q, q ∈ s0.preds j → q < n := by
    intro j q hq
    rw [← hlenn]
    exact hg.predsLt j q hq
  obtain ⟨sInv4, sVerts, sIdx, sTrace⟩ :=
    loop_and_step4_spec n hn s0 hlenn hg.bij hsemi hlab hg.parentLt hpar hpredsLt
      hanc hbuckf hidomf htracef
  rw [← hstate] at sInv4 sVerts sIdx sTrace
  obtain ⟨hid0, hidLt, hidHigh⟩ := sInv4
  refine ⟨hn, ?_, ?_, ?_, ?_, hid0, hidLt, hidHigh, ?_, ?_⟩
  · rw [sVerts]
    exact hlenn
  · intro v i
    rw [sIdx, sVerts]
    exact hg.bij v i
  · intro v
    rw [sIdx]
    exact hassigned v
  · rw [sIdx]
    exact res.vSlot rfl
  · rw [sTrace]
    rfl
  · have hl2 : (makeEngine succs entry n vd).state.verts.length = n := by
      rw [sVerts]
      exact hlenn
    show (makeEngine succs entry n vd).state.verts ++
        List.replicate (n - (makeEngine succs entry n vd).state.verts.length) vd =
      (makeEngine succs entry n vd).state.verts
    rw [hl2, Nat.sub_self]
    simp

/-! ### The idom chain -/

/-- Iterating `w ↦ idom[w]` (`SIZE_MAX` read as 0, a case the theorems never
hit on the runs they quantify over). -/
def idomIter (idomv : Nat → Option Nat) : Nat → Nat → Nat
  | 0, i => i
  | k + 1, i => idomIter idomv k ((idomv i).getD 0)

/-- The list of indices the `while (idomIdx != 0)` walks of `dominates` /
`dominatorsOf` visit, starting at `c` (inclusive) and stopping before 0. -/
def chainIdx (idomv : Nat → Option Nat) : Nat → Nat → List Nat
  | 0, _ => []
  | fuel + 1, c =>
    if c = 0 then []
    else
      c :: (match idomv c with
        | some d => chainIdx idomv fuel d
        | none => [])

theorem idomIter_reaches_zero (idomv : Nat → Option Nat) (n : Nat)
    (hlt : ∀ j, 1 ≤ j → j < n → ∃ d, idomv j = some d ∧ d < j) :
    ∀ i, i < n → ∃ k, k ≤ i ∧ idomIter idomv k i = 0 := by
  intro i
  induction i using Nat.strong_induction_on with
  | _ i ih =>
    intro hi
    by_cases h0 : i = 0
    · exact ⟨0, Nat.zero_le i, by rw [h0]; rfl⟩
    · obtain ⟨d, hd, hdi⟩ := hlt i (by omega) hi
      obtain ⟨k, hk, hk0⟩ := ih d hdi (by omega)
      refine ⟨k + 1, by omega, ?_⟩
      show idomIter idomv k ((idomv i).getD 0) = 0
      rw [hd]
      exact hk0

/-- The `while (idomIdx != 0)` walk of `dominates` terminates with `.ok`
on every strictly decreasing idom vector, and answers membership of `aIdx`
in the visited chain (or `aIdx == 0`). -/
theorem domWalkAux_spec (n : Nat) (idomv : Nat → Option Nat) (aIdx : Nat)
    (hlt : ∀ j, 1 ≤ j → j < n → ∃ d, idomv j = some d ∧ d < j) :
    ∀ fuel c, c < n → c < fuel →
      domWalkAux idomv n aIdx fuel (some c) =
        .ok (decide (aIdx = 0) || decide (aIdx ∈ chainIdx idomv fuel c)) := by
  intro fuel
  induction fuel with
  | zero =>
    intro c _ h
    omega
  | succ fuel ih =>
    intro c hcn hcf
    by_cases hc0 : c = 0
    · subst hc0
      rw [domWalkAux, if_pos rfl]
      simp [chainIdx]
    · obtain ⟨d, hd, hdc⟩ := hlt c (by omega) hcn
      have hchain : chainIdx idomv (fuel + 1) c = c :: chainIdx idomv fuel d := by
        simp only [chainIdx, hd]
        rw [if_neg hc0]
      by_cases hca : c = aIdx
      · rw [domWalkAux, if_neg (by simp [hc0]), if_pos (by rw [hca]), hchain]
        subst hca
        simp
      · have e1 : domWalkAux idomv n aIdx (fuel + 1) (some c) =
            (if c < n then
              match idomv c with
              | some nxt =>
                if nxt < c then domWalkAux idomv n aIdx fuel (some nxt)
                else .error .invariantViolation
              | none => .error .invariantViolation
            else .error .vertexNotFound) := by
          rw [domWalkAux, if_neg (by simp [hc0]), if_neg (by simp [hca])]
        rw [e1, if_pos hcn]
        simp only [hd]
        rw [if_pos hdc, ih d (by omega) (by omega), hchain]
        have hac : ¬ aIdx = c := fun h => hca h.symm
        simp [hac]

/-- The collecting walk of `dominatorsOf` maps `m_vertices` over the same
chain. -/
theorem domListAux_spec {V : Type} (n : Nat) (idomv : Nat → Option Nat)
    (hlt : ∀ j, 1 ≤ j → j < n → ∃ d, idomv j = some d ∧ d < j)
    (mV : List V) (vd : V) (hnl : n ≤ mV.length) :
    ∀ fuel c, c < n → c < fuel →
      domListAux idomv n mV fuel (some c) =
        .ok ((chainIdx idomv fuel c).map (fun j => mV.getD j vd)) := by
  intro fuel
  induction fuel with
  | zero =>
    intro c _ h
    omega
  | succ fuel ih =>
    intro c hcn hcf
    by_cases hc0 : c = 0
    · subst hc0
      show Except.ok ([] : List V) = _
      simp [chainIdx]
    · obtain ⟨k, rfl⟩ : ∃ k, c = k + 1 := ⟨c - 1, by omega⟩
      obtain ⟨d, hd, hdc⟩ := hlt (k + 1) (by omega) hcn
      have hchain : chainIdx idomv (fuel + 1) (k + 1) = (k + 1) :: chainIdx idomv fuel d := by
        simp only [chainIdx, hd]
        rw [if_neg (Nat.succ_ne_zero k)]
      have e1 : domListAux idomv n mV (fuel + 1) (some (k + 1)) =
          (if k + 1 < n then
            match idomv (k + 1) with
            | some nxt =>
              if nxt < k + 1 then
                match mV[k + 1]? with
                | some vc =>
                  match domListAux idomv n mV fuel (some nxt) with
                  | .ok rest => .ok (vc :: rest)
                  | .error err => .error err
                | none => .error .vertexNotFound
              else .error .invariantViolation
            | none => .error .invariantViolation
          else .error .vertexNotFound) := rfl
      have hkl : k + 1 < mV.length := by omega
      have hmv : mV[k + 1]? = some (mV.getD (k + 1) vd) := by
        rw [List.getElem?_eq_getElem hkl, List.getD_eq_getElem mV vd hkl]
      rw [e1, if_pos hcn]
      simp only [hd]
      rw [if_pos hdc]
      simp only [hmv, ih d (by omega) (by omega)]
      rw [hchain]
      simp

/-- Bounds transfer: an assigned index is below the vertex count. -/
theorem EngineInv.idxBound {V : Type} {succs : V → List V} {entry : V} {e : Engine V}
    (inv : EngineInv succs entry e) {v : V} {i : Nat} (h : e.state.idx v = some i) :
    i < e.numV := by
  have hl := getElem?_some_lt ((inv.bij v i).1 h)
  rw [inv.lenEq] at hl
  exact hl

/-- `m_vertices[0]` is the entry vertex. -/
theorem EngineInv.vert0 {V : Type} {succs : V → List V} {entry : V} {e : Engine V}
    (inv : EngineInv succs entry e) : e.mVerts.getD 0 e.vDefault = entry := by
  have h0 : e.state.verts[0]? = some entry := (inv.bij entry 0).1 inv.entry0
  rw [inv.mVertsEq, List.getD_eq_getElem?_getD, h0]
  rfl

/-- `dominates` on two assigned vertices returns `.ok`, answering the chain
membership computed by `chainIdx`. -/
theorem dominates_ok_of_inv {V : Type} [DecidableEq V] {succs : V → List V} {entry : V}
    {e : Engine V} (inv : EngineInv succs entry e) {a b : V} {ia ib : Nat}
    (ha : e.state.idx a = some ia) (hb : e.state.idx b = some ib) :
    e.dominates a b = .ok (decide (ia = ib) || decide (ia = 0) ||
      decide (ia ∈ chainIdx e.state.idom (e.numV + 1) ((e.state.idom ib).getD 0))) := by
  have hne : ¬ e.state.verts.isEmpty = true := by
    rw [List.isEmpty_iff_length_eq_zero, inv.lenEq]
    have := inv.hn
    omega
  have hn0 : ¬ e.numV = 0 := by
    have := inv.hn
    omega
  simp only [Engine.dominates]
  rw [if_neg hne, if_neg hn0]
  simp only [ha, hb]
  by_cases hab : ia = ib
  · rw [if_pos hab]
    simp [hab]
  · rw [if_neg hab, if_pos (inv.idxBound hb)]
    by_cases hb0 : ib = 0
    · subst hb0
      rw [inv.idom0, domWalkAux, if_pos rfl]
      simp [chainIdx, inv.idom0, hab]
    · obtain ⟨d, hd, hdb⟩ := inv.idomLt ib (by omega) (inv.idxBound hb)
      have hdn : d < e.numV := by
        have := inv.idxBound hb
        omega
      rw [hd, domWalkAux_spec e.numV e.state.idom ia inv.idomLt (e.numV + 1) d hdn
        (by omega)]
      simp [hab]

/-- `dominatorsOf` on an assigned vertex returns `.ok`: empty for index 0,
otherwise the chain's vertices with `m_vertices[0]` appended. -/
theorem dominatorsOf_ok_of_inv {V : Type} [DecidableEq V] {succs : V → List V} {entry : V}
    {e : Engine V} (inv : EngineInv succs entry e) {v : V} {i : Nat}
    (hv : e.state.idx v = some i) :
    e.dominatorsOf v = .ok (
      if i = 0 then []
      else ((chainIdx e.state.idom (e.numV + 1) ((e.state.idom i).getD 0)).map
        (fun c => e.mVerts.getD c e.vDefault)) ++ [e.mVerts.getD 0 e.vDefault]) := by
  have hne : ¬ e.state.verts.isEmpty = true := by
    rw [List.isEmpty_iff_length_eq_zero, inv.lenEq]
    have := inv.hn
    omega
  have hmvne : ¬ e.mVerts.isEmpty = true := by
    rw [inv.mVertsEq]
    exact hne
  have hn0 : ¬ e.numV = 0 := by
    have := inv.hn
    omega
  simp only [Engine.dominatorsOf]
  rw [if_neg hmvne, if_neg hne, if_neg hn0]
  simp only [hv]
  by_cases hi0 : i = 0
  · rw [if_pos hi0, if_pos hi0]
  · rw [if_neg hi0, if_neg hi0, if_pos (inv.idxBound hv)]
    obtain ⟨d, hd, hdi⟩ := inv.idomLt i (by omega) (inv.idxBound hv)
    have hlen : e.numV ≤ e.mVerts.length := by
      rw [inv.mVertsEq, inv.lenEq]
    have hdn : d < e.numV := by
      have := inv.idxBound hv
      omega
    rw [hd]
    simp only [domListAux_spec e.numV e.state.idom inv.idomLt e.mVerts e.vDefault hlen
      (e.numV + 1) d hdn (by omega)]
    simp

/-! ### The dominator tree map -/

theorem mem_range_drop_one {i n : Nat} : i ∈ (List.range n).drop 1 ↔ 1 ≤ i ∧ i < n := by
  cases n with
  | zero => simp
  | succ m =>
    rw [List.range_succ_eq_map]
    show i ∈ List.map (· + 1) (List.range m) ↔ _
    simp only [List.mem_map, List.mem_range]
    constructor
    · rintro ⟨a, ha, rfl⟩
      omega
    · intro ⟨h1, h2⟩
      exact ⟨i - 1, by omega, by omega⟩

/-- The fold of `buildDominatorTree` succeeds on a strictly decreasing idom
list and groups each processed index under its immediate dominator, in
processing order. -/
theorem treeStep_fold (idoms : List (Option Nat)) :
    ∀ (l : List Nat), (∀ i ∈ l, ∃ d, idoms.getD i none = some d ∧ d < i) →
      ∀ t0 : Nat → List Nat, ∃ tf, l.foldl (treeStep idoms) (some t0) = some tf ∧
        ∀ p, tf p = t0 p ++ l.filter (fun i => decide (idoms.getD i none = some p)) := by
  intro l
  induction l with
  | nil =>
    intro _ t0
    exact ⟨t0, rfl, fun p => by simp⟩
  | cons i l ih =>
    intro hmem t0
    obtain ⟨d, hd, hdi⟩ := hmem i (List.mem_cons_self _ _)
    have hb : treeStep idoms (some t0) i = some (upd t0 d (t0 d ++ [i])) := by
      simp only [treeStep, hd]
      rw [if_pos hdi]
    rw [List.foldl_cons, hb]
    obtain ⟨tf, hfold, hchar⟩ :=
      ih (fun j hj => hmem j (List.mem_cons_of_mem _ hj)) (upd t0 d (t0 d ++ [i]))
    refine ⟨tf, hfold, ?_⟩
    intro p
    rw [hchar p]
    by_cases hpd : p = d
    · subst hpd
      rw [upd_same,
        List.filter_cons_of_pos (by simp only [decide_eq_true_eq]; exact hd),
        List.append_assoc]
      rfl
    · rw [upd_ne _ _ hpd,
        List.filter_cons_of_neg (by
          simp only [decide_eq_true_eq, hd, Option.some.injEq]
          exact fun h => hpd h.symm)]

/-- Each index with a strictly smaller dominator lands in exactly one group:
the group sizes sum to the number of processed indices. -/
theorem sum_filter_length (idomF : Nat → Option Nat) (n : Nat) :
    ∀ l : List Nat, (∀ i ∈ l, ∃ d, idomF i = some d ∧ d < n) →
      (∑ p ∈ Finset.range n,
        (l.filter (fun i => decide (idomF i = some p))).length) = l.length := by
  intro l
  induction l with
  | nil =>
    intro _
    simp
  | cons i l ih =>
    intro hmem
    obtain ⟨d, hd, hdn⟩ := hmem i (List.mem_cons_self _ _)
    have hrec := ih (fun j hj => hmem j (List.mem_cons_of_mem _ hj))
    have hsplit : ∀ p, (List.filter (fun j => decide (idomF j = some p)) (i :: l)).length =
        (if p = d then 1 else 0) + (List.filter (fun j => decide (idomF j = some p)) l).length := by
      intro p
      by_cases hpd : p = d
      · subst hpd
        rw [List.filter_cons_of_pos (by simp [hd]), if_pos rfl, List.length_cons]
        omega
      · rw [List.filter_cons_of_neg (by simp [hd]; omega), if_neg hpd]
        simp
    simp only [hsplit]
    rw [Finset.sum_add_distrib, hrec, Finset.sum_ite_eq' (Finset.range n) d (fun _ => 1),
      if_pos (Finset.mem_range.2 hdn), List.length_cons]
    omega

/-! ### `IRGeneratorForStatements::stackSize` -/

/-- The primitive type constructors `stackSize` distinguishes (via
`TypeSystemHelpers::isPrimitiveType` / `isFunctionType`). -/
inductive PrimTy where
  | unit
  | itself
  | bool
  | word
  | integer
  | void
  | typeFunction
  | pair
  | function
deriving DecidableEq

/-- A type constructor: a primitive or a user-defined one. -/
inductive TyCon where
  | prim : PrimTy → TyCon
  | user : Nat → TyCon
deriving DecidableEq

/-- A type term: a type constant (constructor applied to arguments) or a
type variable — `std::holds_alternative<TypeConstant>` distinguishes exactly
these two shapes. -/
inductive Ty where
  | con : TyCon → List Ty → Ty
  | tvar : Nat → Ty

/-- Modelled from the spec: the pieces of `TypeEnvironment` /
`TypeSystemHelpers` that `stackSize` consults (their code is outside this
repository).  `resolve` is `TypeEnvironment::resolve`; `underlying` is
`annotation<TypeInference>().underlyingTypes.at` (`none` models the key being
absent, i.e. the `.at` throw); `userResult` is the result component obtained
by unifying the generic function type with the underlying type and
destructuring it (`none` models `env.unify(...)` reporting failures, the
`solAssert` in the source). -/
structure TypeEnvModel where
  resolve : Ty → Ty
  underlying : TyCon → Option Ty
  userResult : TyCon → List Ty → Option Ty

/-- The error outcomes of `stackSize`: `invalidStackRepresentation` is the
`solThrow(langutil::CompilerError, ...)`, `invariantViolation` a failing
`solAssert`, `outOfRange` the uncaught `std::out_of_range` of
`underlyingTypes.at`, and `outOfFuel` the model's recursion bound. -/
inductive StackErr where
  | invalidStackRepresentation
  | invariantViolation
  | outOfRange
  | outOfFuel
deriving DecidableEq

/-- `IRGeneratorForStatements::stackSize`.  The fuel bounds the recursion
depth (the source recursion carries no termination argument of its own);
`outOfFuel` never occurs when the fuel exceeds the type's nesting depth. -/
def stackSize (env : TypeEnvModel) : Nat → Ty → Except StackErr Nat
  | 0, _ => .error .outOfFuel
  | fuel + 1, t =>
    match env.resolve t with
    | Ty.tvar _ => .error .invariantViolation
    | Ty.con c args =>
      match c with
      | .prim .unit => .ok 0
      | .prim .itself => .ok 0
      | .prim .bool => if args.isEmpty then .ok 1 else .error .invariantViolation
      | .prim .word => if args.isEmpty then .ok 1 else .error .invariantViolation
      | .prim .function => .ok 1
      | .prim .integer => .error .invalidStackRepresentation
      | .prim .void => .error .invalidStackRepresentation
      | .prim .typeFunction => .error .invalidStackRepresentation
      | .prim .pair =>
        match args with
        | [a, b] =>
          match stackSize env fuel a with
          | .ok x =>
            match stackSize env fuel b with
            | .ok y => .ok (x + y)
            | .error e => .error e
          | .error e => .error e
        | _ => .error .invariantViolation
      | .user u =>
        match env.underlying (TyCon.user u) with
        | none => .error .outOfRange
        | some ut =>
          match env.resolve ut with
          | Ty.con c2 args2 => stackSize env fuel (Ty.con c2 args2)
          | Ty.tvar _ =>
            match env.userResult (TyCon.user u) args with
            | some rt => stackSize env fuel rt
            | none => .error .invariantViolation

/-- A test environment whose `resolve` is the identity (every term is already
fully resolved). -/
def idResolveEnv : TypeEnvModel :=
  { resolve := fun t => t, underlying := fun _ => none, userResult := fun _ _ => none }

/-! ### Concrete graphs (from `test/libyul/DominatorTest.cpp` and spec §8) -/

/-- Scenario 1, "diamond with side branch": vertices A..H as 0..7, successors
in the listed edge order A→B, B→C, B→D, C→D, C→G, D→E, E→F, G→H, H→F. -/
def diamondSuccs : Nat → List Nat
  | 0 => [1]
  | 1 => [2, 3]
  | 2 => [3, 6]
  | 3 => [4]
  | 4 => [5]
  | 6 => [7]
  | 7 => [5]
  | _ => []

def diamondEngine : Engine Nat := makeEngine diamondSuccs 0 8 99

/-- Two-vertex line 0→1 (the smallest graph with an edge). -/
def lineSuccs : Nat → List Nat
  | 0 => [1]
  | _ => []

def lineEngine : Engine Nat := makeEngine lineSuccs 0 2 99

/-- The same two-vertex line constructed with `_numVertices = 3`, one more
than the reachable count (99 plays the default-constructed vertex). -/
def lineHint3 : Engine Nat := makeEngine lineSuccs 0 3 99

/-- Two-vertex cycle 0→1→0: the last vertex discovered by the DFS (1) has an
outgoing edge. -/
def cyc2Succs : Nat → List Nat
  | 0 => [1]
  | 1 => [0]
  | _ => []

/-- The reachable set of the two-vertex line is `{0, 1}`. -/
theorem reach_line : ∀ v, v ∈ ({0, 1} : Finset Nat) ↔ Reaches lineSuccs 0 v := by
  intro v
  constructor
  · intro hv
    rcases Finset.mem_insert.1 hv with rfl | hv2
    · exact Reaches.base
    · rcases Finset.mem_singleton.1 hv2 with rfl
      exact Reaches.step Reaches.base (by decide)
  · intro h
    induction h with
    | base => decide
    | @step u w hu hw ih =>
      rcases Finset.mem_insert.1 ih with rfl | h2
      · simp [lineSuccs] at hw
        subst hw
        decide
      · rcases Finset.mem_singleton.1 h2 with rfl
        simp [lineSuccs] at hw

/-- The reachable set of the diamond graph is `{0, …, 7}`. -/
theorem reach_diamond : ∀ v, v ∈ Finset.range 8 ↔ Reaches diamondSuccs 0 v := by
  intro v
  constructor
  · intro hv
    have h0 : Reaches diamondSuccs 0 0 := Reaches.base
    have h1 : Reaches diamondSuccs 0 1 := Reaches.step h0 (by decide)
    have h2 : Reaches diamondSuccs 0 2 := Reaches.step h1 (by decide)
    have h3 : Reaches diamondSuccs 0 3 := Reaches.step h1 (by decide)
    have h4 : Reaches diamondSuccs 0 4 := Reaches.step h3 (by decide)
    have h5 : Reaches diamondSuccs 0 5 := Reaches.step h4 (by decide)
    have h6 : Reaches diamondSuccs 0 6 := Reaches.step h2 (by decide)
    have h7 : Reaches diamondSuccs 0 7 := Reaches.step h6 (by decide)
    have hv8 := Finset.mem_range.1 hv
    interval_cases v <;> assumption
  · intro h
    induction h with
    | base => decide
    | @step u w hu hw ih =>
      have hu8 := Finset.mem_range.1 ih
      rw [Finset.mem_range]
      interval_cases u <;> simp [diamondSuccs] at hw <;> omega

/-! ### The claims -/

/-- C1: on the diamond-with-side-branch graph (vertices A..H encoded as 0..7,
successors in the listed edge order) the engine assigns DFS indices
A=0,…,H=7 and `immediateDominators()` is exactly [0,0,1,1,3,1,2,6]. -/
theorem diamond_scenario_results :
    diamondEngine.idomVec =
      [some 0, some 0, some 1, some 1, some 3, some 1, some 2, some 6] ∧
    (List.range 8).map diamondEngine.state.idx =
      [some 0, some 1, some 2, some 3, some 4, some 5, some 6, some 7] := by
  decide

/-- C2: when the reachable count equals `_numVertices`, the idom vector has
`idom[0] = 0` and `idom[i] < i` for every `0 < i < n`; iterating `idom` from
any index therefore reaches 0 in at most `i` (strictly decreasing) steps. -/
theorem idom_vector_rooted {V : Type} [DecidableEq V] (succs : V → List V) (entry : V)
    (n : Nat) (vd : V) (R : Finset V)
    (hR : ∀ v, v ∈ R ↔ Reaches succs entry v) (hcard : R.card = n) :
    (makeEngine succs entry n vd).state.idom 0 = some 0 ∧
    (∀ i, 1 ≤ i → i < n → ∃ d, (makeEngine succs entry n vd).state.idom i = some d ∧ d < i) ∧
    (∀ i, i < n → ∃ k, k ≤ i ∧ idomIter (makeEngine succs entry n vd).state.idom k i = 0) := by
  have inv := makeEngine_inv succs entry n vd R hR hcard
  refine ⟨inv.idom0, fun i h1 h2 => inv.idomLt i h1 h2, ?_⟩
  exact idomIter_reaches_zero _ n (fun j a b => inv.idomLt j a b)

theorem idom_vector_rooted_witness :
    lineEngine.state.idom 0 = some 0 ∧
    (∀ i, 1 ≤ i → i < 2 → ∃ d, lineEngine.state.idom i = some d ∧ d < i) ∧
    (∀ i, i < 2 → ∃ k, k ≤ i ∧ idomIter lineEngine.state.idom k i = 0) :=
  idom_vector_rooted lineSuccs 0 2 99 {0, 1} reach_line (by decide)

/-- C3: on two reachable vertices `dominates` returns `.ok`, true exactly when
the indices coincide (iff the vertices do), `a`'s index is 0, or `a`'s index
lies on the idom chain walked from `b`'s index; in particular the entry
dominates every reachable vertex and every reachable vertex dominates
itself. -/
theorem dominates_chain_characterization {V : Type} [DecidableEq V] (succs : V → List V)
    (entry : V) (n : Nat) (vd : V) (R : Finset V)
    (hR : ∀ v, v ∈ R ↔ Reaches succs entry v) (hcard : R.card = n)
    (a b : V) (hra : Reaches succs entry a) (hrb : Reaches succs entry b) :
    ∃ ia ib,
      (makeEngine succs entry n vd).state.idx a = some ia ∧
      (makeEngine succs entry n vd).state.idx b = some ib ∧
      (ia = ib ↔ a = b) ∧
      (makeEngine succs entry n vd).dominates a b =
        .ok (decide (ia = ib) || decide (ia = 0) ||
          decide (ia ∈ chainIdx (makeEngine succs entry n vd).state.idom (n + 1)
            (((makeEngine succs entry n vd).state.idom ib).getD 0))) ∧
      (makeEngine succs entry n vd).dominates entry b = .ok true ∧
      (makeEngine succs entry n vd).dominates b b = .ok true := by
  have inv := makeEngine_inv succs entry n vd R hR hcard
  obtain ⟨ia, ha⟩ := Option.isSome_iff_exists.1 ((inv.reach a).2 hra)
  obtain ⟨ib, hb⟩ := Option.isSome_iff_exists.1 ((inv.reach b).2 hrb)
  refine ⟨ia, ib, ha, hb, ?_, dominates_ok_of_inv inv ha hb, ?_, ?_⟩
  · constructor
    · intro h
      have h1 := (inv.bij a ia).1 ha
      have h2 := (inv.bij b ib).1 hb
      rw [h] at h1
      exact Option.some.inj (h1.symm.trans h2)
    · intro h
      rw [h] at ha
      exact Option.some.inj (ha.symm.trans hb)
  · rw [dominates_ok_of_inv inv inv.entry0 hb]
    simp
  · rw [dominates_ok_of_inv inv hb hb]
    simp

theorem dominates_chain_characterization_witness :
    ∃ ia ib,
      diamondEngine.state.idx 2 = some ia ∧
      diamondEngine.state.idx 5 = some ib ∧
      (ia = ib ↔ (2 : Nat) = 5) ∧
      diamondEngine.dominates 2 5 =
        .ok (decide (ia = ib) || decide (ia = 0) ||
          decide (ia ∈ chainIdx diamondEngine.state.idom (8 + 1)
            ((diamondEngine.state.idom ib).getD 0))) ∧
      diamondEngine.dominates 0 5 = .ok true ∧
      diamondEngine.dominates 5 5 = .ok true :=
  dominates_chain_characterization diamondSuccs 0 8 99 (Finset.range 8) reach_diamond
    (by decide) 2 5 ((reach_diamond 2).1 (by decide)) ((reach_diamond 5).1 (by decide))

/-- C4: `dominatorsOf` of the entry is the empty sequence; for any other
reachable vertex it is the non-empty chain of vertices at the indices
`idom[index(v)], idom[idom[index(v)]], …` (strictly above 0), with the entry
vertex appended as the last element. -/
theorem dominatorsOf_chain_characterization {V : Type} [DecidableEq V] (succs : V → List V)
    (entry : V) (n : Nat) (vd : V) (R : Finset V)
    (hR : ∀ v, v ∈ R ↔ Reaches succs entry v) (hcard : R.card = n)
    (v : V) (hrv : Reaches succs entry v) :
    ∃ i, (makeEngine succs entry n vd).state.idx v = some i ∧
      (i = 0 → (makeEngine succs entry n vd).dominatorsOf v = .ok []) ∧
      (1 ≤ i → ∃ l, (makeEngine succs entry n vd).dominatorsOf v = .ok l ∧
        l ≠ [] ∧ l.getLast? = some entry ∧
        l = (chainIdx (makeEngine succs entry n vd).state.idom (n + 1)
              (((makeEngine succs entry n vd).state.idom i).getD 0)).map
            (fun c => (makeEngine succs entry n vd).mVerts.getD c vd) ++ [entry]) := by
  have inv := makeEngine_inv succs entry n vd R hR hcard
  obtain ⟨i, hv⟩ := Option.isSome_iff_exists.1 ((inv.reach v).2 hrv)
  have h := dominatorsOf_ok_of_inv inv hv
  refine ⟨i, hv, ?_, ?_⟩
  · intro h0
    rw [h, if_pos h0]
  · intro h1
    rw [h, if_neg (by omega)]
    refine ⟨_, rfl, by simp, ?_, ?_⟩
    · rw [List.getLast?_concat, inv.vert0]
    · rw [inv.vert0]
      rfl

theorem dominatorsOf_chain_characterization_witness :
    ∃ i, diamondEngine.state.idx 7 = some i ∧
      (i = 0 → diamondEngine.dominatorsOf 7 = .ok []) ∧
      (1 ≤ i → ∃ l, diamondEngine.dominatorsOf 7 = .ok l ∧
        l ≠ [] ∧ l.getLast? = some 0 ∧
        l = (chainIdx diamondEngine.state.idom (8 + 1)
              ((diamondEngine.state.idom i).getD 0)).map
            (fun c => diamondEngine.mVerts.getD c 99) ++ [0]) :=
  dominatorsOf_chain_characterization diamondSuccs 0 8 99 (Finset.range 8) reach_diamond
    (by decide) 7 ((reach_diamond 7).1 (by decide))

/-- C5 (amended): the main loop iterates over `m_vertices` reversed in full —
it processes the DFS indices n−1, …, 1, 0 in that order.  The entry (index 0)
is NOT skipped: the loop body runs for it as well (the original claim's
"down to 1, skipping 0" is refuted by `main_loop_entry_processed`). -/
theorem main_loop_processes_all {V : Type} [DecidableEq V] (succs : V → List V)
    (entry : V) (n : Nat) (vd : V) (R : Finset V)
    (hR : ∀ v, v ∈ R ↔ Reaches succs entry v) (hcard : R.card = n) :
    (makeEngine succs entry n vd).state.trace = (List.range n).reverse := by
  have inv := makeEngine_inv succs entry n vd R hR hcard
  exact inv.traceEq

theorem main_loop_processes_all_witness :
    lineEngine.state.trace = (List.range 2).reverse :=
  main_loop_processes_all lineSuccs 0 2 99 {0, 1} reach_line (by decide)

/-- C5 counterexample: on the two-vertex line the loop's iteration sequence
(the per-iteration `wIdx` values, in order) is [1, 0] — index 0, the entry,
is processed by the loop, not skipped. -/
theorem main_loop_entry_processed :
    lineEngine.state.trace = [1, 0] ∧ 0 ∈ lineEngine.state.trace := by
  decide

/-- C6 (amended): the containers are sized by the `_numVertices` hint, not by
the actual reachable count.  With hint 3 on the two-vertex line,
`m_vertices` keeps a third default-constructed slot, `m_immediateDominators`
keeps the `SIZE_MAX` sentinel at index 2 (so `buildDominatorTree` fails its
`solAssert(m_immediateDominators[index] < index)` — modelled as `tree = none`),
and the loop's `toIdx` inserts the default vertex into `m_vertexIndices`. -/
theorem hint_mismatch_behaviour :
    (∀ (succs : Nat → List Nat) (entry : Nat) (n : Nat) (vd : Nat),
      (makeEngine succs entry n vd).idomVec.length = n) ∧
    lineHint3.mVerts = [0, 1, 99] ∧
    lineHint3.idomVec = [some 0, some 0, none] ∧
    lineHint3.tree.isSome = false ∧
    lineHint3.state.idx 99 = some 0 := by
  constructor
  · intro succs entry n vd
    have hnum : (makeEngine succs entry n vd).numV = n := rfl
    simp [Engine.idomVec, hnum]
  · decide

/-- C6 counterexample: with hint 3 and actual reachable count 2, the engine's
structures have size 3 (the hint), the unreachable default vertex 99 appears
in `vertices()`, and construction does hit an invariant violation (the
dominator-tree build's assert), contradicting each part of the claim. -/
theorem hint_mismatch_counterexample :
    lineHint3.mVerts.length = 3 ∧
    lineHint3.state.verts.length = 2 ∧
    (99 : Nat) ∈ lineHint3.mVerts ∧
    lineHint3.tree.isSome = false := by
  decide

/-- C7: `dominates` and `dominatorsOf` fail with `VertexNotFound` exactly when
a given vertex was never visited by the DFS, and return `.ok` when all given
vertices are reachable. -/
theorem vertex_not_found_characterization {V : Type} [DecidableEq V] (succs : V → List V)
    (entry : V) (n : Nat) (vd : V) (R : Finset V)
    (hR : ∀ v, v ∈ R ↔ Reaches succs entry v) (hcard : R.card = n) :
    (∀ a b : V,
      ((makeEngine succs entry n vd).dominates a b = .error .vertexNotFound ↔
        ¬(Reaches succs entry a ∧ Reaches succs entry b)) ∧
      ((∃ r, (makeEngine succs entry n vd).dominates a b = .ok r) ↔
        (Reaches succs entry a ∧ Reaches succs entry b))) ∧
    (∀ v : V,
      ((makeEngine succs entry n vd).dominatorsOf v = .error .vertexNotFound ↔
        ¬ Reaches succs entry v) ∧
      ((∃ l, (makeEngine succs entry n vd).dominatorsOf v = .ok l) ↔
        Reaches succs entry v)) := by
  have inv := makeEngine_inv succs entry n vd R hR hcard
  have hn' : 1 ≤ n := inv.hn
  have hne : ¬ (makeEngine succs entry n vd).state.verts.isEmpty = true := by
    rw [List.isEmpty_iff_length_eq_zero, inv.lenEq]
    show ¬ n = 0
    omega
  have hmvne : ¬ (makeEngine succs entry n vd).mVerts.isEmpty = true := by
    rw [inv.mVertsEq]
    exact hne
  have hn0 : ¬ (makeEngine succs entry n vd).numV = 0 := by
    show ¬ n = 0
    omega
  constructor
  · intro a b
    by_cases hab : Reaches succs entry a ∧ Reaches succs entry b
    · obtain ⟨hra, hrb⟩ := hab
      obtain ⟨ia, ha⟩ := Option.isSome_iff_exists.1 ((inv.reach a).2 hra)
      obtain ⟨ib, hb⟩ := Option.isSome_iff_exists.1 ((inv.reach b).2 hrb)
      have hok := dominates_ok_of_inv inv ha hb
      refine ⟨?_, ?_⟩
      · rw [hok]
        simp [hra, hrb]
      · exact ⟨fun _ => ⟨hra, hrb⟩, fun _ => ⟨_, hok⟩⟩
    · have herr : (makeEngine succs entry n vd).dominates a b = .error .vertexNotFound := by
        simp only [Engine.dominates]
        rw [if_neg hne, if_neg hn0]
        by_cases hra : Reaches succs entry a
        · have hrb : ¬ Reaches succs entry b := fun h => hab ⟨hra, h⟩
          have hbnone : (makeEngine succs entry n vd).state.idx b = none :=
            Option.not_isSome_iff_eq_none.1 (fun hs => hrb ((inv.reach b).1 hs))
          obtain ⟨ia, ha⟩ := Option.isSome_iff_exists.1 ((inv.reach a).2 hra)
          simp [ha, hbnone]
        · have hanone : (makeEngine succs entry n vd).state.idx a = none :=
            Option.not_isSome_iff_eq_none.1 (fun hs => hra ((inv.reach a).1 hs))
          simp [hanone]
      exact ⟨by simp [herr, hab], by simp [herr, hab]⟩
  · intro v
    by_cases hrv : Reaches succs entry v
    · obtain ⟨i, hv⟩ := Option.isSome_iff_exists.1 ((inv.reach v).2 hrv)
      have hok := dominatorsOf_ok_of_inv inv hv
      refine ⟨?_, ?_⟩
      · rw [hok]
        simp [hrv]
      · exact ⟨fun _ => hrv, fun _ => ⟨_, hok⟩⟩
    · have hvnone : (makeEngine succs entry n vd).state.idx v = none :=
        Option.not_isSome_iff_eq_none.1 (fun hs => hrv ((inv.reach v).1 hs))
      have herr : (makeEngine succs entry n vd).dominatorsOf v = .error .vertexNotFound := by
        simp only [Engine.dominatorsOf]
        rw [if_neg hmvne, if_neg hne, if_neg hn0]
        simp [hvnone]
      exact ⟨by simp [herr, hrv], by simp [herr, hrv]⟩

theorem vertex_not_found_characterization_witness :
    (∀ a b : Nat,
      ((lineEngine.dominates a b = .error .vertexNotFound ↔
        ¬(Reaches lineSuccs 0 a ∧ Reaches lineSuccs 0 b)) ∧
      ((∃ r, lineEngine.dominates a b = .ok r) ↔
        (Reaches lineSuccs 0 a ∧ Reaches lineSuccs 0 b)))) ∧
    (∀ v : Nat,
      ((lineEngine.dominatorsOf v = .error .vertexNotFound ↔ ¬ Reaches lineSuccs 0 v) ∧
      ((∃ l, lineEngine.dominatorsOf v = .ok l) ↔ Reaches lineSuccs 0 v))) :=
  vertex_not_found_characterization lineSuccs 0 2 99 {0, 1} reach_line (by decide)

/-- C8: after `t = env.resolve(t)` yields a type constant, `stackSize` returns
0 for Unit and Itself; 1 for Bool and Word (whose argument lists must be
empty, else the assertion fires) and for any function type; the sum of the
components for Pair; and `InvalidStackRepresentation` for Integer, Void and
TypeFunction. -/
theorem stackSize_rules (env : TypeEnvModel) (fuel : Nat) (t : Ty) :
    (∀ args, env.resolve t = Ty.con (.prim .unit) args →
      stackSize env (fuel + 1) t = .ok 0) ∧
    (∀ args, env.resolve t = Ty.con (.prim .itself) args →
      stackSize env (fuel + 1) t = .ok 0) ∧
    (∀ args, env.resolve t = Ty.con (.prim .bool) args →
      stackSize env (fuel + 1) t =
        if args.isEmpty then .ok 1 else .error .invariantViolation) ∧
    (∀ args, env.resolve t = Ty.con (.prim .word) args →
      stackSize env (fuel + 1) t =
        if args.isEmpty then .ok 1 else .error .invariantViolation) ∧
    (∀ args, env.resolve t = Ty.con (.prim .function) args →
      stackSize env (fuel + 1) t = .ok 1) ∧
    (∀ a b x y, env.resolve t = Ty.con (.prim .pair) [a, b] →
      stackSize env fuel a = .ok x → stackSize env fuel b = .ok y →
      stackSize env (fuel + 1) t = .ok (x + y)) ∧
    (∀ args, env.resolve t = Ty.con (.prim .integer) args →
      stackSize env (fuel + 1) t = .error .invalidStackRepresentation) ∧
    (∀ args, env.resolve t = Ty.con (.prim .void) args →
      stackSize env (fuel + 1) t = .error .invalidStackRepresentation) ∧
    (∀ args, env.resolve t = Ty.con (.prim .typeFunction) args →
      stackSize env (fuel + 1) t = .error .invalidStackRepresentation) := by
  refine ⟨?_, ?_, ?_, ?_, ?_, ?_, ?_, ?_, ?_⟩
  · intro args h
    simp [stackSize, h]
  · intro args h
    simp [stackSize, h]
  · intro args h
    simp only [stackSize, h]
  · intro args h
    simp only [stackSize, h]
  · intro args h
    simp [stackSize, h]
  · intro a b x y h hx hy
    simp only [stackSize, h, hx, hy]
  · intro args h
    simp [stackSize, h]
  · intro args h
    simp [stackSize, h]
  · intro args h
    simp [stackSize, h]

theorem stackSize_rules_witness :
    stackSize idResolveEnv 2 (Ty.con (.prim .pair)
      [Ty.con (.prim .unit) [], Ty.con (.prim .bool) []]) = .ok 1 ∧
    stackSize idResolveEnv 1 (Ty.con (.prim .integer) []) =
      .error .invalidStackRepresentation := by
  constructor
  · exact (stackSize_rules idResolveEnv 1 (Ty.con (.prim .pair)
      [Ty.con (.prim .unit) [], Ty.con (.prim .bool) []])).2.2.2.2.2.1
      (Ty.con (.prim .unit) []) (Ty.con (.prim .bool) []) 0 1 rfl rfl rfl
  · exact (stackSize_rules idResolveEnv 0
      (Ty.con (.prim .integer) [])).2.2.2.2.2.2.1 [] rfl

/-- C9: the dominator tree maps each index `p` to the ascending list of the
indices it immediately dominates ( `[]` playing the role of an absent map
entry), and the group sizes sum to n−1, one per non-entry vertex. -/
theorem dominator_tree_characterization {V : Type} [DecidableEq V] (succs : V → List V)
    (entry : V) (n : Nat) (vd : V) (R : Finset V)
    (hR : ∀ v, v ∈ R ↔ Reaches succs entry v) (hcard : R.card = n) :
    ∃ t, (makeEngine succs entry n vd).tree = some t ∧
      (∀ p, t p = ((List.range n).drop 1).filter
        (fun i => decide ((makeEngine succs entry n vd).state.idom i = some p))) ∧
      (∀ p, (t p).Pairwise (· < ·)) ∧
      (∀ p, t p ≠ [] ↔ ∃ i, (1 ≤ i ∧ i < n) ∧
        (makeEngine succs entry n vd).state.idom i = some p) ∧
      (∑ p ∈ Finset.range n, (t p).length) = n - 1 := by
  have inv := makeEngine_inv succs entry n vd R hR hcard
  have hnum : (makeEngine succs entry n vd).numV = n := rfl
  have hlenVec : (makeEngine succs entry n vd).idomVec.length = n := by
    simp [Engine.idomVec, hnum]
  have hgetD : ∀ i, i < n → (makeEngine succs entry n vd).idomVec.getD i none =
      (makeEngine succs entry n vd).state.idom i := by
    intro i hi
    rw [List.getD_eq_getElem?_getD]
    simp [Engine.idomVec, hnum, List.getElem?_map, List.getElem?_range hi]
  have hmem : ∀ i ∈ (List.range (makeEngine succs entry n vd).idomVec.length).drop 1,
      ∃ d, (makeEngine succs entry n vd).idomVec.getD i none = some d ∧ d < i := by
    intro i hi
    rw [hlenVec] at hi
    obtain ⟨h1, h2⟩ := mem_range_drop_one.1 hi
    obtain ⟨d, hd, hdi⟩ := inv.idomLt i h1 h2
    exact ⟨d, by rw [hgetD i h2]; exact hd, hdi⟩
  have hvne : ¬ (makeEngine succs entry n vd).idomVec.isEmpty = true := by
    rw [List.isEmpty_iff_length_eq_zero, hlenVec]
    have hn' : 1 ≤ n := inv.hn
    omega
  obtain ⟨tf, hfold, hchar⟩ := treeStep_fold (makeEngine succs entry n vd).idomVec
    ((List.range (makeEngine succs entry n vd).idomVec.length).drop 1) hmem (fun _ => [])
  have htree : (makeEngine succs entry n vd).tree = some tf := by
    show buildDominatorTree (makeEngine succs entry n vd).idomVec = some tf
    rw [buildDominatorTree, if_neg hvne]
    exact hfold
  have hfilt : ∀ p, tf p = ((List.range n).drop 1).filter
      (fun i => decide ((makeEngine succs entry n vd).state.idom i = some p)) := by
    intro p
    rw [hchar p]
    simp only [List.nil_append]
    rw [hlenVec]
    apply List.filter_congr
    intro i hi
    obtain ⟨h1, h2⟩ := mem_range_drop_one.1 hi
    rw [hgetD i h2]
  refine ⟨tf, htree, hfilt, ?_, ?_, ?_⟩
  · intro p
    rw [hfilt p]
    exact (List.pairwise_lt_range n).sublist
      ((List.filter_sublist _).trans (List.drop_sublist _ _))
  · intro p
    rw [hfilt p]
    constructor
    · intro hne2
      obtain ⟨x, hx⟩ := List.exists_mem_of_ne_nil _ hne2
      rw [List.mem_filter] at hx
      obtain ⟨hx1, hx2⟩ := hx
      obtain ⟨g1, g2⟩ := mem_range_drop_one.1 hx1
      exact ⟨x, ⟨g1, g2⟩, of_decide_eq_true hx2⟩
    · rintro ⟨i, ⟨h1, h2⟩, hdi⟩
      intro hnil
      have hmem2 : i ∈ ((List.range n).drop 1).filter
          (fun j => decide ((makeEngine succs entry n vd).state.idom j = some p)) :=
        List.mem_filter.2 ⟨mem_range_drop_one.2 ⟨h1, h2⟩, decide_eq_true hdi⟩
      rw [hnil] at hmem2
      exact absurd hmem2 (List.not_mem_nil i)
  · have hs := sum_filter_length (makeEngine succs entry n vd).state.idom n
      ((List.range n).drop 1) (fun i hi => by
        obtain ⟨h1, h2⟩ := mem_range_drop_one.1 hi
        obtain ⟨d, hd, hdi⟩ := inv.idomLt i h1 h2
        exact ⟨d, hd, by omega⟩)
    simp only [hfilt]
    rw [hs, List.length_drop, List.length_range]

theorem dominator_tree_characterization_witness :
    ∃ t, lineEngine.tree = some t ∧
      (∀ p, t p = ((List.range 2).drop 1).filter
        (fun i => decide (lineEngine.state.idom i = some p))) ∧
      (∀ p, (t p).Pairwise (· < ·)) ∧
      (∀ p, t p ≠ [] ↔ ∃ i, (1 ≤ i ∧ i < 2) ∧ lineEngine.state.idom i = some p) ∧
      (∑ p ∈ Finset.range 2, (t p).length) = 2 - 1 :=
  dominator_tree_characterization lineSuccs 0 2 99 {0, 1} reach_line (by decide)

/-- C10: on the two-vertex cycle 0→1→0 (numVertices = 2) the successor
guard's `semi` reads happen at indices 1 and 2: the second read is at the
allocation size itself, one past the end of the array — the claim that every
such read stays strictly below n is false (out-of-bounds read, undefined
behaviour in the C++). -/
theorem dfs_semi_read_out_of_bounds :
    (dfsReads cyc2Succs 3 0 (initState Nat, [])).2 = [1, 2] ∧
    2 ∈ (dfsReads cyc2Succs 3 0 (initState Nat, [])).2 ∧
    (dfsStep cyc2Succs 3 0 (initState Nat)).verts.length = 2 := by
  decide

end SolidityDom
